import Mathlib

/-!
Shallow embedding of the `is_core` package (`is_core/loading.py` and
`is_core/forms/forms.py`) together with theorems checking the claims of the
specification.

Modelling conventions:
* Python ordered dictionaries (Django's `SortedDict`, form field dicts,
  `cleaned_data`, `_errors`, HTML attribute dicts) are association lists over
  `String` keys; `d[k] = v` replaces in place when the key is present and
  appends otherwise, which is exactly `SortedDict.__setitem__`.
* Python sets (`App.cores`, `set(readonly_fields)`) are duplicate-free lists;
  iteration order over a Python set is unspecified, so we fix the order of
  first occurrence.
* Exceptions (`ValidationError`, `KeyError`, `ImportError`) are `Except`.
* The host framework (Django, piston) is not part of the repository; framework
  behaviour that the embedded code calls into (widget rendering callbacks,
  `BoundField.value` for editable fields, `add_prefix`/`auto_id` naming) is
  carried as function-valued components of the embedded structures.
-/

namespace IsCore

/-! ### Association-list dictionaries (Python `dict` / Django `SortedDict`) -/

/-- First-match lookup: the semantics of `d.get(k)` / `d[k]`. -/
def dget {α : Type} : List (String × α) → String → Option α
  | [], _ => none
  | (k, v) :: d, key => if k = key then some v else dget d key

/-- Setting `d[k] = v` on an ordered dict: replace the value in place when the key is
present, append a fresh entry otherwise (`SortedDict.__setitem__`). -/
def dset {α : Type} : List (String × α) → String → α → List (String × α)
  | [], key, v => [(key, v)]
  | (k, w) :: d, key, v => if k = key then (key, v) :: d else (k, w) :: dset d key v

/-- Deletion `del d[k]` (guarded by `if k in d`): drop the entry with the given key;
on a dict with unique keys this removes the key, on an absent key it is a
no-op. -/
def derase {α : Type} : List (String × α) → String → List (String × α)
  | [], _ => []
  | (k, v) :: d, key => if k = key then d else (k, v) :: derase d key

theorem dget_eq_none_iff {α : Type} (d : List (String × α)) (k : String) :
    dget d k = none ↔ k ∉ d.map Prod.fst := by
  induction d with
  | nil => simp [dget]
  | cons p d ih =>
    obtain ⟨k', v'⟩ := p
    by_cases h : k' = k
    · subst h
      simp [dget]
    · have h2 : k ≠ k' := fun hh => h hh.symm
      simp [dget, h, ih, h2]

theorem dget_isSome_iff {α : Type} (d : List (String × α)) (k : String) :
    (dget d k).isSome = true ↔ k ∈ d.map Prod.fst := by
  rw [Option.isSome_iff_ne_none]
  constructor
  · intro h
    by_contra hk
    exact h ((dget_eq_none_iff d k).2 hk)
  · intro h hnone
    exact ((dget_eq_none_iff d k).1 hnone) h

theorem dget_append_left {α : Type} {d : List (String × α)} (e : List (String × α))
    {k : String} {v : α} (h : dget d k = some v) : dget (d ++ e) k = some v := by
  induction d with
  | nil => simp [dget] at h
  | cons p d ih =>
    obtain ⟨k', v'⟩ := p
    by_cases hk : k' = k
    · simpa [dget, hk] using h
    · simp only [List.cons_append, dget, if_neg hk] at h ⊢
      exact ih h

theorem dget_append_right {α : Type} {d : List (String × α)} (e : List (String × α))
    {k : String} (h : dget d k = none) : dget (d ++ e) k = dget e k := by
  induction d with
  | nil => simp
  | cons p d ih =>
    obtain ⟨k', v'⟩ := p
    by_cases hk : k' = k
    · simp [dget, hk] at h
    · simp only [dget, if_neg hk] at h
      simp only [List.cons_append, dget, if_neg hk]
      exact ih h

theorem dget_dset_self {α : Type} (d : List (String × α)) (k : String) (v : α) :
    dget (dset d k v) k = some v := by
  induction d with
  | nil => simp [dset, dget]
  | cons p d ih =>
    obtain ⟨k₀, v₀⟩ := p
    by_cases hk : k₀ = k
    · subst hk
      simp [dset, dget]
    · simp [dset, dget, hk, ih]

theorem dget_dset_ne {α : Type} (d : List (String × α)) {k k' : String} (v : α)
    (h : k' ≠ k) : dget (dset d k v) k' = dget d k' := by
  have h2 : k ≠ k' := fun hh => h hh.symm
  induction d with
  | nil => simp [dset, dget, h2]
  | cons p d ih =>
    obtain ⟨k₀, v₀⟩ := p
    by_cases hk : k₀ = k
    · subst hk
      simp [dset, dget, h2]
    · by_cases hk' : k₀ = k'
      · subst hk'
        simp [dset, dget, hk]
      · simp [dset, dget, hk, hk', ih]

theorem dget_derase_ne {α : Type} (d : List (String × α)) {k k' : String}
    (h : k' ≠ k) : dget (derase d k) k' = dget d k' := by
  have h2 : k ≠ k' := fun hh => h hh.symm
  induction d with
  | nil => simp [derase]
  | cons p d ih =>
    obtain ⟨k₀, v₀⟩ := p
    by_cases hk : k₀ = k
    · subst hk
      simp [derase, dget, h2]
    · by_cases hk' : k₀ = k'
      · subst hk'
        simp [derase, dget, hk]
      · simp [derase, dget, hk, hk', ih]

theorem keys_derase {α : Type} (d : List (String × α)) (k : String) :
    (derase d k).map Prod.fst = (d.map Prod.fst).erase k := by
  induction d with
  | nil => simp [derase]
  | cons p d ih =>
    obtain ⟨k₀, v₀⟩ := p
    by_cases hk : k₀ = k
    · subst hk
      simp [derase, List.erase_cons]
    · simp [derase, hk, List.erase_cons, ih]

theorem dget_derase_self {α : Type} (d : List (String × α)) (k : String)
    (h : (d.map Prod.fst).Nodup) : dget (derase d k) k = none := by
  induction d with
  | nil => simp [derase, dget]
  | cons p d ih =>
    obtain ⟨k₀, v₀⟩ := p
    simp only [List.map_cons, List.nodup_cons] at h
    by_cases hk : k₀ = k
    · subst hk
      simp only [derase, if_pos rfl]
      exact (dget_eq_none_iff d k₀).2 h.1
    · simp only [derase, if_neg hk, dget, if_neg hk]
      exact ih h.2

theorem keys_dset_present {α : Type} (d : List (String × α)) {k : String} (v : α)
    (h : (dget d k).isSome = true) :
    (dset d k v).map Prod.fst = d.map Prod.fst := by
  induction d with
  | nil => simp [dget] at h
  | cons p d ih =>
    obtain ⟨k₀, v₀⟩ := p
    by_cases hk : k₀ = k
    · subst hk
      simp [dset]
    · have h' : (dget d k).isSome = true := by simpa [dget, hk] using h
      simp [dset, hk, ih h']

theorem keys_dset_absent {α : Type} (d : List (String × α)) {k : String} (v : α)
    (h : dget d k = none) :
    (dset d k v).map Prod.fst = d.map Prod.fst ++ [k] := by
  induction d with
  | nil => simp [dset]
  | cons p d ih =>
    obtain ⟨k₀, v₀⟩ := p
    by_cases hk : k₀ = k
    · simp [dget, hk] at h
    · have h' : dget d k = none := by simpa [dget, hk] using h
      simp [dset, hk, ih h']

theorem keys_dset_nodup {α : Type} (d : List (String × α)) (k : String) (v : α)
    (h : (d.map Prod.fst).Nodup) : ((dset d k v).map Prod.fst).Nodup := by
  cases hd : dget d k with
  | some w =>
    rw [keys_dset_present d v (by simp [hd])]
    exact h
  | none =>
    rw [keys_dset_absent d v hd]
    simp only [List.nodup_append, List.nodup_cons]
    refine ⟨h, by simp, ?_⟩
    intro a ha
    simp only [List.mem_singleton]
    intro hak
    subst hak
    exact ((dget_eq_none_iff d a).1 hd) ha

theorem keys_derase_nodup {α : Type} (d : List (String × α)) (k : String)
    (h : (d.map Prod.fst).Nodup) : ((derase d k).map Prod.fst).Nodup := by
  rw [keys_derase]
  exact h.erase k

/-! ### `is_core/loading.py` -/

/-- Python `class App`: holder for the set of cores registered for one app label.
The Python `set` is modelled as a duplicate-free list. -/
structure App (Core : Type) where
  cores : List Core

/-- Python `set.add`: insert when absent, otherwise leave the set unchanged. -/
def setAdd {Core : Type} [DecidableEq Core] (s : List Core) (c : Core) : List Core :=
  if c ∈ s then s else s ++ [c]

/-- Python `class CoresLoader`: `self.apps` is a `SortedDict` from app label to `App`. -/
structure CoresLoader (Core : Type) where
  apps : List (String × App Core)

/-- The state `CoresLoader()` as constructed at module load time. -/
def emptyLoader {Core : Type} : CoresLoader Core := ⟨[]⟩

/-- Method `CoresLoader.register_core(app_label, core)`. -/
def register_core {Core : Type} [DecidableEq Core] (st : CoresLoader Core)
    (app_label : String) (core : Core) : CoresLoader Core :=
  let app := (dget st.apps app_label).getD ⟨[]⟩
  ⟨dset st.apps app_label ⟨setAdd app.cores core⟩⟩

/-- The generator body of `CoresLoader.get_cores`: yield the cores of every
registered app, in the (insertion) order of `self.apps`. -/
def yieldCores {Core : Type} (st : CoresLoader Core) : List Core :=
  (st.apps.map (fun p => p.2.cores)).flatten

/-- The effect of one `import_module` call: an `ImportError`, or a module body
that runs (performing `register_core` calls) against the loader state. -/
abbrev ModuleImport (Core : Type) := Except Unit (CoresLoader Core → CoresLoader Core)

/-- The `try: import_module('%s.cores' % app) except ImportError: pass` body of
`CoresLoader._init_apps`: a failed import leaves the state unchanged. -/
def tryImportCores {Core : Type} (st : CoresLoader Core) (imp : ModuleImport Core) :
    CoresLoader Core :=
  match imp with
  | .ok m => m st
  | .error _ => st

/-- Method `CoresLoader._init_apps`: `import_module('is_core.main')` is *not* guarded
(its failure propagates), then every installed app's `cores` submodule is
imported with `ImportError` caught. -/
def _init_apps {Core : Type} (mainImport : ModuleImport Core)
    (appImports : List (ModuleImport Core)) (st : CoresLoader Core) :
    Except Unit (CoresLoader Core) :=
  match mainImport with
  | .error e => .error e
  | .ok m => .ok (appImports.foldl tryImportCores (m st))

/-- Method `CoresLoader.get_cores`: run `_init_apps`, then yield all registered cores. -/
def get_cores {Core : Type} (mainImport : ModuleImport Core)
    (appImports : List (ModuleImport Core)) (st : CoresLoader Core) :
    Except Unit (List Core) :=
  (_init_apps mainImport appImports st).map yieldCores

/-- Run a sequence of `register_core(app_label, core)` calls. -/
def registerAll {Core : Type} [DecidableEq Core] (ops : List (String × Core))
    (st : CoresLoader Core) : CoresLoader Core :=
  ops.foldl (fun s p => register_core s p.1 p.2) st

/-- The cores currently recorded for one app label. -/
def coresOf {Core : Type} (st : CoresLoader Core) (app_label : String) : List Core :=
  ((dget st.apps app_label).getD ⟨[]⟩).cores

/-- Keep the first occurrence of every element, in order: the order in which
labels are first seen. -/
def firstOccurrenceOrder : List String → List String
  | [] => []
  | l :: ls => l :: firstOccurrenceOrder (ls.filter (fun x => x ≠ l))
termination_by ls => ls.length
decreasing_by
  simp only [List.length_cons]
  exact Nat.lt_succ_of_le (List.length_filter_le _ _)

/-- Key accumulation along a label sequence, as performed by repeated
`SortedDict.__setitem__`. -/
def keysAfter (seen : List String) : List String → List String
  | [] => seen
  | l :: ls => keysAfter (if l ∈ seen then seen else seen ++ [l]) ls

/-! ### Lemmas about the loader -/

theorem dget_mem {α : Type} {d : List (String × α)} {k : String} {v : α}
    (h : dget d k = some v) : (k, v) ∈ d := by
  induction d with
  | nil => simp [dget] at h
  | cons p d ih =>
    obtain ⟨k₀, v₀⟩ := p
    by_cases hk : k₀ = k
    · subst hk
      have h' : v₀ = v := by simpa [dget] using h
      subst h'
      exact List.mem_cons_self _ _
    · simp only [dget, if_neg hk] at h
      exact List.mem_cons_of_mem _ (ih h)

theorem mem_setAdd {Core : Type} [DecidableEq Core] {s : List Core} {a c : Core} :
    a ∈ setAdd s c ↔ a ∈ s ∨ a = c := by
  unfold setAdd
  split
  · constructor
    · exact Or.inl
    · rintro (h | h)
      · exact h
      · subst h; assumption
  · simp

theorem mem_setAdd_self {Core : Type} [DecidableEq Core] (s : List Core) (c : Core) :
    c ∈ setAdd s c :=
  mem_setAdd.2 (Or.inr rfl)

theorem setAdd_idem {Core : Type} [DecidableEq Core] (s : List Core) (c : Core) :
    setAdd (setAdd s c) c = setAdd s c := by
  show (if c ∈ setAdd s c then setAdd s c else setAdd s c ++ [c]) = setAdd s c
  rw [if_pos (mem_setAdd_self s c)]

theorem setAdd_nodup {Core : Type} [DecidableEq Core] {s : List Core} (c : Core)
    (h : s.Nodup) : (setAdd s c).Nodup := by
  unfold setAdd
  by_cases hc : c ∈ s
  · rw [if_pos hc]
    exact h
  · rw [if_neg hc]
    refine List.Nodup.append h (by simp) ?_
    intro a ha hb
    simp only [List.mem_singleton] at hb
    subst hb
    exact hc ha

theorem count_setAdd_self {Core : Type} [DecidableEq Core] {s : List Core} (c : Core)
    (h : s.Nodup) : (setAdd s c).count c = 1 := by
  unfold setAdd
  split
  · exact List.count_eq_one_of_mem h (by assumption)
  · rw [List.count_append]
    rw [List.count_eq_zero_of_not_mem (by assumption)]
    simp

theorem dset_dset_same {α : Type} (d : List (String × α)) (k : String) (v : α) :
    dset (dset d k v) k v = dset d k v := by
  induction d with
  | nil => simp [dset]
  | cons p d ih =>
    obtain ⟨k₀, v₀⟩ := p
    by_cases hk : k₀ = k
    · subst hk
      simp [dset]
    · simp [dset, hk, ih]

theorem coresOf_register_self {Core : Type} [DecidableEq Core] (st : CoresLoader Core)
    (lbl : String) (c : Core) :
    coresOf (register_core st lbl c) lbl = setAdd (coresOf st lbl) c := by
  simp [coresOf, register_core, dget_dset_self]

theorem coresOf_register_ne {Core : Type} [DecidableEq Core] (st : CoresLoader Core)
    {lbl lbl' : String} (c : Core) (h : lbl' ≠ lbl) :
    coresOf (register_core st lbl c) lbl' = coresOf st lbl' := by
  simp [coresOf, register_core, dget_dset_ne _ _ h]

theorem mem_yieldCores_of_dget {Core : Type} {st : CoresLoader Core} {lbl : String}
    {app : App Core} {c : Core} (hget : dget st.apps lbl = some app)
    (hc : c ∈ app.cores) : c ∈ yieldCores st := by
  unfold yieldCores
  rw [List.mem_flatten]
  exact ⟨app.cores, List.mem_map_of_mem _ (dget_mem hget), hc⟩

theorem mem_yieldCores_of_coresOf {Core : Type} {st : CoresLoader Core} {lbl : String}
    {c : Core} (hc : c ∈ coresOf st lbl) : c ∈ yieldCores st := by
  unfold coresOf at hc
  cases hget : dget st.apps lbl with
  | none => rw [hget] at hc; simp at hc
  | some app =>
    rw [hget] at hc
    exact mem_yieldCores_of_dget hget hc

theorem registerAll_coresOf_mem {Core : Type} [DecidableEq Core]
    (ops : List (String × Core)) (st : CoresLoader Core) (lbl : String) (c : Core) :
    c ∈ coresOf (registerAll ops st) lbl ↔ c ∈ coresOf st lbl ∨ (lbl, c) ∈ ops := by
  induction ops generalizing st with
  | nil => simp [registerAll]
  | cons p ops ih =>
    obtain ⟨l', c'⟩ := p
    show c ∈ coresOf (registerAll ops (register_core st l' c')) lbl ↔ _
    rw [ih]
    by_cases hl : lbl = l'
    · subst hl
      rw [coresOf_register_self, mem_setAdd]
      simp only [List.mem_cons, Prod.mk.injEq, true_and]
      tauto
    · rw [coresOf_register_ne _ _ hl]
      simp only [List.mem_cons, Prod.mk.injEq]
      constructor
      · rintro (h | h)
        · exact Or.inl h
        · exact Or.inr (Or.inr h)
      · rintro (h | ⟨h1, h2⟩ | h)
        · exact Or.inl h
        · exact absurd h1 hl
        · exact Or.inr h

theorem keys_register {Core : Type} [DecidableEq Core] (st : CoresLoader Core)
    (lbl : String) (c : Core) :
    (register_core st lbl c).apps.map Prod.fst =
      if lbl ∈ st.apps.map Prod.fst then st.apps.map Prod.fst
      else st.apps.map Prod.fst ++ [lbl] := by
  by_cases h : lbl ∈ st.apps.map Prod.fst
  · rw [if_pos h]
    exact keys_dset_present _ _ ((dget_isSome_iff _ _).2 h)
  · rw [if_neg h]
    exact keys_dset_absent _ _ ((dget_eq_none_iff _ _).2 h)

theorem keys_registerAll {Core : Type} [DecidableEq Core] (ops : List (String × Core))
    (st : CoresLoader Core) :
    (registerAll ops st).apps.map Prod.fst =
      keysAfter (st.apps.map Prod.fst) (ops.map Prod.fst) := by
  induction ops generalizing st with
  | nil => simp [registerAll, keysAfter]
  | cons p ops ih =>
    obtain ⟨l', c'⟩ := p
    show (registerAll ops (register_core st l' c')).apps.map Prod.fst = _
    rw [ih, keys_register]
    rfl

theorem firstOccurrenceOrder_cons (l : String) (ls : List String) :
    firstOccurrenceOrder (l :: ls) =
      l :: firstOccurrenceOrder (ls.filter (fun x => x ≠ l)) := by
  rw [firstOccurrenceOrder]

theorem keysAfter_firstOccurrenceOrder (seen : List String) (ls : List String) :
    keysAfter seen ls = seen ++ firstOccurrenceOrder (ls.filter (fun x => x ∉ seen)) := by
  induction ls generalizing seen with
  | nil => simp [keysAfter, firstOccurrenceOrder]
  | cons l ls ih =>
    have heq : keysAfter seen (l :: ls) =
        keysAfter (if l ∈ seen then seen else seen ++ [l]) ls := rfl
    by_cases hl : l ∈ seen
    · rw [heq, if_pos hl, ih]
      have hfilter : (l :: ls).filter (fun x => x ∉ seen) = ls.filter (fun x => x ∉ seen) := by
        simp [List.filter_cons, hl]
      rw [hfilter]
    · rw [heq, if_neg hl, ih]
      have hfilter : (l :: ls).filter (fun x => x ∉ seen) =
          l :: ls.filter (fun x => x ∉ seen) := by
        simp [List.filter_cons, hl]
      rw [hfilter, firstOccurrenceOrder_cons]
      have hff : ls.filter (fun x => x ∉ seen ++ [l]) =
          (ls.filter (fun x => x ∉ seen)).filter (fun x => x ≠ l) := by
        rw [List.filter_filter]
        apply List.filter_congr
        intro x _
        by_cases h1 : x ∈ seen <;> by_cases h2 : x = l <;> simp [h1, h2]
      rw [hff]
      simp

theorem registerAll_mem_yield {Core : Type} [DecidableEq Core]
    {ops : List (String × Core)} {st : CoresLoader Core} {p : String × Core}
    (hp : p ∈ ops) : p.2 ∈ yieldCores (registerAll ops st) := by
  have hc : p.2 ∈ coresOf (registerAll ops st) p.1 := by
    rw [registerAll_coresOf_mem]
    exact Or.inr (by simpa using hp)
  exact mem_yieldCores_of_coresOf hc

/-! ### Claims about `loading.py` -/

/-- Claim C5: every core previously passed to `register_core(app_label, core)`
is yielded by a subsequent `get_cores()` call, and cores are yielded grouped
by app, the groups appearing in the order in which the app labels were first
registered. Formally: after an arbitrary sequence of registrations starting
from the fresh loader, (1) every registered core is in the yielded list,
(2) the app-label order of the loader dictionary is the first-registration
order of the labels, and (3) the cores grouped under a label are exactly the
cores registered under it. -/
theorem c5_register_core_roundtrip {Core : Type} [DecidableEq Core]
    (ops : List (String × Core)) :
    (∀ p ∈ ops, p.2 ∈ yieldCores (registerAll ops emptyLoader)) ∧
    (registerAll ops emptyLoader).apps.map Prod.fst =
      firstOccurrenceOrder (ops.map Prod.fst) ∧
    (∀ lbl c, c ∈ coresOf (registerAll ops emptyLoader) lbl ↔ (lbl, c) ∈ ops) := by
  refine ⟨fun p hp => registerAll_mem_yield hp, ?_, ?_⟩
  · rw [keys_registerAll, show (emptyLoader : CoresLoader Core).apps.map Prod.fst = [] from rfl,
      keysAfter_firstOccurrenceOrder]
    simp
  · intro lbl c
    rw [registerAll_coresOf_mem]
    simp [coresOf, emptyLoader, dget]

/-- Witness for C5 at a concrete registration sequence. -/
theorem c5_register_core_roundtrip_witness :
    ("a", 2) ∈ [("a", 2), ("b", 3), ("a", 5)] ∧
    (2 : Nat) ∈ yieldCores (registerAll [("a", 2), ("b", 3), ("a", 5)] emptyLoader) ∧
    (registerAll [("a", (2 : Nat)), ("b", 3), ("a", 5)] emptyLoader).apps.map Prod.fst =
      firstOccurrenceOrder (([("a", (2 : Nat)), ("b", 3), ("a", 5)]).map Prod.fst) := by
  have h := c5_register_core_roundtrip [("a", (2 : Nat)), ("b", 3), ("a", 5)]
  exact ⟨by decide, h.1 ("a", 2) (by decide), h.2.1⟩

/-- Claim C7: `get_cores` (through `_init_apps`) catches `ImportError` for the
`cores` submodule of each installed app, so whenever the package's own
`is_core.main` module imports (its import is not guarded), `get_cores` returns
without raising for every combination of failing and succeeding app imports,
and every core registered in the resulting state is still yielded. -/
theorem c7_get_cores_catches_import_errors {Core : Type}
    (mainBody : CoresLoader Core → CoresLoader Core)
    (appImports : List (ModuleImport Core)) (st : CoresLoader Core) :
    ∃ l, get_cores (Except.ok mainBody) appImports st = Except.ok l ∧
      ∀ lbl app, dget (appImports.foldl tryImportCores (mainBody st)).apps lbl = some app →
        ∀ c ∈ app.cores, c ∈ l := by
  refine ⟨yieldCores (appImports.foldl tryImportCores (mainBody st)), rfl, ?_⟩
  intro lbl app hget c hc
  exact mem_yieldCores_of_dget hget hc

/-- Witness for C7: one installed app without a `cores` module (a failing
import) next to one that registers a core. -/
theorem c7_get_cores_catches_import_errors_witness :
    ∃ l, get_cores (Except.ok (fun s => register_core s "a" (5 : Nat)))
        [Except.error (), Except.ok (fun s => register_core s "b" (7 : Nat))]
        emptyLoader = Except.ok l ∧
      ∀ lbl app,
        dget (([Except.error (), Except.ok (fun s => register_core s "b" (7 : Nat))].foldl
            tryImportCores ((fun s => register_core s "a" (5 : Nat)) emptyLoader)).apps) lbl =
          some app →
        ∀ c ∈ app.cores, c ∈ l :=
  c7_get_cores_catches_import_errors (fun s => register_core s "a" (5 : Nat))
    [Except.error (), Except.ok (fun s => register_core s "b" (7 : Nat))] emptyLoader

/-- Claim C8: `register_core` is idempotent in the core — registering the same
`(app_label, core)` twice leaves the loader exactly as one registration does,
because `App.cores` is a set — and the app's group then holds that core
exactly once (given the set invariant that the stored cores are
duplicate-free). -/
theorem c8_register_core_idempotent {Core : Type} [DecidableEq Core]
    (st : CoresLoader Core) (lbl : String) (c : Core) :
    register_core (register_core st lbl c) lbl c = register_core st lbl c ∧
    ((coresOf st lbl).Nodup → (coresOf (register_core st lbl c) lbl).count c = 1) := by
  constructor
  · show CoresLoader.mk _ = CoresLoader.mk _
    have happ : (dget (register_core st lbl c).apps lbl).getD ⟨[]⟩ =
        App.mk (setAdd (coresOf st lbl) c) := by
      show (dget (dset st.apps lbl _) lbl).getD _ = _
      rw [dget_dset_self]
      rfl
    rw [happ]
    show CoresLoader.mk
        (dset (dset st.apps lbl ⟨setAdd (coresOf st lbl) c⟩) lbl
          ⟨setAdd (setAdd (coresOf st lbl) c) c⟩) = _
    rw [setAdd_idem, dset_dset_same]
    rfl
  · intro hnodup
    rw [coresOf_register_self]
    exact count_setAdd_self c hnodup

/-- Witness for C8 at a concrete loader state. -/
theorem c8_register_core_idempotent_witness :
    register_core (register_core (emptyLoader : CoresLoader Nat) "a" 1) "a" 1 =
      register_core emptyLoader "a" 1 ∧
    (coresOf (register_core (emptyLoader : CoresLoader Nat) "a" 1) "a").count 1 = 1 := by
  have h := c8_register_core_idempotent (emptyLoader : CoresLoader Nat) "a" 1
  exact ⟨h.1, h.2 (by decide)⟩

/-! ### `is_core/forms/forms.py`: data model

`Req` is the type of the host framework's request objects; the embedded code
only passes requests through, never inspects them. -/

/-- A field name. -/
abbrev FName := String

/-- An HTML attribute dict (`attrs`). -/
abbrev AttrL := List (String × String)

/-- A submitted-data dictionary (`self.data` / `self.files`). -/
abbrev DataDict := List (String × String)

/-- The raw value a widget extracts from the data dict. -/
abbrev Raw := String

/-- A Python object that may or may not be callable; `ReadonlyBoundField.value`
calls it once when `callable(data)` holds. -/
inductive PyData where
  | obj (v : Int)
  | callableObj (f : Unit → PyData)

/-- The call-once step `if callable(data): data = data()`. -/
def callIfCallable : PyData → PyData
  | .obj v => .obj v
  | .callableObj f => f ()

/-- Exception `ValidationError`: carries `e.messages`. -/
structure VErr where
  messages : List String

/-- A Django widget, as the embedded code uses it: its `attrs` dict, the
`is_localized` flag (set by `as_widget` for localized fields), whether it is a
`SmartWidgetMixin` instance, and its framework-provided rendering and
data-extraction callbacks. -/
structure Widget (Req : Type) where
  attrs : AttrL
  is_localized : Bool
  isSmartWidget : Bool
  render : FName → Int → AttrL → String
  smart_render : Req → FName → Int → AttrL → String
  value_from_datadict : DataDict → DataDict → String → Raw

/-- A Django form field, as the embedded code uses it. `clean` may raise
`ValidationError`; `cleanWithInitial` is `FileField.clean(value, initial)`,
used when `isinstance(field, FileField)`. `readonly_widget` is the
field's readonly-widget factory or `None`. -/
structure Field (Req : Type) where
  is_readonly : Bool
  localize : Bool
  widget : Widget Req
  readonly_widget : Option (Widget Req → Widget Req)
  initial : PyData
  prepare_value : PyData → Int
  clean : Raw → Except VErr Int
  cleanWithInitial : Raw → PyData → Except VErr Int
  isFileField : Bool

/-- A `SmartForm` instance as seen by the mixin methods: `_request` (installed
by `smartform_factory`), the field dict, `base_readonly_fields`, the bound
data/files, `initial`, framework naming helpers (`add_prefix`,
`add_initial_prefix`, `auto_id`, `html_initial_id`; an empty `auto_id` models
the falsy value), the framework's `BoundField.value` for editable fields, and
the optional `clean_<name>` hooks (which read `cleaned_data` and return the
cleaned value or raise `ValidationError`). -/
structure Form (Req : Type) where
  _request : Req
  fields : List (FName × Field Req)
  base_readonly_fields : List FName
  data : DataDict
  files : DataDict
  initial : List (FName × PyData)
  htmlNameOf : FName → String
  htmlInitialNameOf : FName → String
  autoIdOf : FName → String
  htmlInitialIdOf : FName → String
  frameworkValue : FName → Int
  cleanHook : FName → Option (List (FName × Int) → Except VErr Int)

/-- Which bound-field class `__getitem__` constructed. -/
inductive BFKind where
  | smart
  | readonly
deriving DecidableEq

/-- A constructed bound field (`SmartBoundField` / `ReadonlyBoundField`):
the class, plus the `(form, field, name)` constructor arguments. -/
structure BField (Req : Type) where
  kind : BFKind
  form : Form Req
  field : Field Req
  name : FName

/-- The `is_readonly` class attribute (`False` on `SmartBoundField`, `True` on
`ReadonlyBoundField`). -/
def BField.is_readonly {Req : Type} (bf : BField Req) : Bool :=
  match bf.kind with
  | .readonly => true
  | .smart => false

/-- Exception `KeyError` raised by `SmartFormMixin.__getitem__`. -/
inductive FormErr where
  | keyError (msg : String)

/-- Method `SmartFormMixin.__getitem__`: look the name up in `self.fields`
(raising `KeyError` when absent) and wrap it in a `ReadonlyBoundField` when
the name is in `base_readonly_fields`, else in a `SmartBoundField`.
(`ReadonlyBoundField.__init__` additionally calls `_set_val_and_label` on
`SmartReadonlyField` instances; `SmartReadonlyField` lives in
`is_core.forms.fields`, outside this repository snapshot, and does not affect
which class is returned.) -/
def getitem {Req : Type} (f : Form Req) (name : FName) : Except FormErr (BField Req) :=
  match dget f.fields name with
  | none => .error (.keyError ("Key " ++ name ++ " not found in Form"))
  | some field =>
    if f.base_readonly_fields.contains name then .ok ⟨.readonly, f, field, name⟩
    else .ok ⟨.smart, f, field, name⟩

/-- Method `ReadonlyBoundField.value`: `self.form.initial.get(self.name,
self.field.initial)`, called if callable, then `self.field.prepare_value`. -/
def readonlyValue {Req : Type} (form : Form Req) (field : Field Req) (name : FName) : Int :=
  field.prepare_value (callIfCallable ((dget form.initial name).getD field.initial))

/-- Dispatch of `self.value()` on a bound field: `ReadonlyBoundField` overrides it; for
`SmartBoundField` it is the framework's `BoundField.value`. -/
def BField.value {Req : Type} (bf : BField Req) : Int :=
  match bf.kind with
  | .smart => bf.form.frameworkValue bf.name
  | .readonly => readonlyValue bf.form bf.field bf.name

/-- Method `SmartFormMixin._get_readonly_widget(field_name, field, widget)`: the
field's `readonly_widget` applied to the passed widget when set, otherwise
the field's own widget. -/
def _get_readonly_widget {Req : Type} (_form : Form Req) (_field_name : FName)
    (field : Field Req) (widget : Widget Req) : Widget Req :=
  match field.readonly_widget with
  | some rw => rw widget
  | none => field.widget

/-- Body of `SmartBoundField.as_widget` (with `self.value()` passed in):
pick the field's default widget when none is given, set `is_localized` for
localized fields, insert the `id` attribute, pick the html name, and delegate
to `smart_render` for `SmartWidgetMixin` widgets, else to `render`. -/
def as_widget_body {Req : Type} (form : Form Req) (field : Field Req) (name : FName)
    (value : Int) (widgetArg : Option (Widget Req)) (attrsArg : Option AttrL)
    (only_initial : Bool) : String :=
  let widget := widgetArg.getD field.widget
  let widget := if field.localize then { widget with is_localized := true } else widget
  let attrs := attrsArg.getD []
  let auto_id := form.autoIdOf name
  let attrs :=
    if auto_id ≠ "" ∧ (dget attrs "id").isNone ∧ (dget widget.attrs "id").isNone then
      if !only_initial then dset attrs "id" auto_id
      else dset attrs "id" (form.htmlInitialIdOf name)
    else attrs
  let rname := if !only_initial then form.htmlNameOf name else form.htmlInitialNameOf name
  if widget.isSmartWidget then widget.smart_render form._request rname value attrs
  else widget.render rname value attrs

/-- Dispatch of `as_widget` on a bound field: `ReadonlyBoundField.as_widget` first defaults
the widget and replaces it by `_get_readonly_widget`, then calls the
`SmartBoundField.as_widget` body. -/
def BField.as_widget {Req : Type} (bf : BField Req) (widgetArg : Option (Widget Req))
    (attrsArg : Option AttrL) (only_initial : Bool) : String :=
  match bf.kind with
  | .smart => as_widget_body bf.form bf.field bf.name bf.value widgetArg attrsArg only_initial
  | .readonly =>
    let w := widgetArg.getD bf.field.widget
    as_widget_body bf.form bf.field bf.name bf.value
      (some (_get_readonly_widget bf.form bf.name bf.field w)) attrsArg only_initial

/-- The mutable validation state of a form: `self.cleaned_data` and
`self._errors` (`full_clean` resets both before `_clean_fields` runs; error
values are the message lists wrapped by `self.error_class`). -/
structure CleanState where
  cleaned_data : List (FName × Int)
  _errors : List (FName × List String)
deriving DecidableEq

/-- The value extraction and `field.clean` part of the `_clean_fields` try
block: `field.widget.value_from_datadict(self.data, self.files,
self.add_prefix(name))`, then `field.clean(value, initial)` for `FileField`s
(with `initial = self.initial.get(name, field.initial)`) or
`field.clean(value)` otherwise. -/
def clean_value {Req : Type} (form : Form Req) (field : Field Req) (name : FName) :
    Except VErr Int :=
  if field.isFileField then
    field.cleanWithInitial
      (field.widget.value_from_datadict form.data form.files (form.htmlNameOf name))
      ((dget form.initial name).getD field.initial)
  else field.clean (field.widget.value_from_datadict form.data form.files (form.htmlNameOf name))

/-- One iteration of the `_clean_fields` loop: skip names in
`base_readonly_fields`; otherwise clean the extracted value, store it in
`cleaned_data`, run the `clean_<name>` hook when present and store its result;
on `ValidationError` record `self.error_class(e.messages)` under the name in
`_errors` and delete the name from `cleaned_data` if present. -/
def _clean_field_step {Req : Type} (form : Form Req) (st : CleanState) (name : FName)
    (field : Field Req) : CleanState :=
  if form.base_readonly_fields.contains name then st
  else
    match clean_value form field name with
    | .error e => ⟨derase st.cleaned_data name, dset st._errors name e.messages⟩
    | .ok v =>
      match form.cleanHook name with
      | none => ⟨dset st.cleaned_data name v, st._errors⟩
      | some hook =>
        match hook (dset st.cleaned_data name v) with
        | .ok v2 => ⟨dset (dset st.cleaned_data name v) name v2, st._errors⟩
        | .error e =>
          ⟨derase (dset st.cleaned_data name v) name, dset st._errors name e.messages⟩

/-- Method `SmartFormMixin._clean_fields`, run from the fresh state `full_clean`
provides. -/
def _clean_fields {Req : Type} (form : Form Req) : CleanState :=
  form.fields.foldl (fun st p => _clean_field_step form st p.1 p.2) ⟨[], []⟩

/-- The state `_clean_fields` has built after a prefix of the field list. -/
def cleanStateAfter {Req : Type} (form : Form Req) (pre : List (FName × Field Req)) :
    CleanState :=
  pre.foldl (fun st p => _clean_field_step form st p.1 p.2) ⟨[], []⟩

/-- The overall outcome of processing one non-readonly field from state `st`:
the final cleaned value, or the `ValidationError` that `field.clean` or the
`clean_<name>` hook raised. -/
def fieldOutcome {Req : Type} (form : Form Req) (st : CleanState) (name : FName)
    (field : Field Req) : Except VErr Int :=
  match clean_value form field name with
  | .error e => .error e
  | .ok v =>
    match form.cleanHook name with
    | none => .ok v
    | some hook => hook (dset st.cleaned_data name v)

/-! ### `SmartFormMetaclass.__new__` and `smartform_factory` -/

/-- The attributes a `Meta` inner class may carry in its own class dict.
An attribute explicitly set to `None` is modelled as absent: the code reads
every one of them through `getattr(opts, ..., None) or default`, which maps
both to the same default. -/
structure MetaAttrs where
  exclude : Option (List FName)
  readonly_fields : Option (List FName)
  readonly : Option Bool

/-- A `Meta` class: its own attribute dict and its base-class chain
(`(object,)` or `(parent.Meta, object)` as built by `smartform_factory`, or a
user-written `Meta`). -/
inductive MetaCls where
  | base (own : MetaAttrs)
  | derived (own : MetaAttrs) (parent : MetaCls)

/-- The own-attribute dict of a `Meta` class. -/
def MetaCls.own : MetaCls → MetaAttrs
  | .base o => o
  | .derived o _ => o

/-- The parent `Meta` class, when there is one. -/
def MetaCls.parentMeta : MetaCls → Option MetaCls
  | .base _ => none
  | .derived _ p => some p

/-- Lookup `getattr(opts, 'exclude', None)`: own dict first, then the base chain. -/
def MetaCls.resolveExclude : MetaCls → Option (List FName)
  | .base o => o.exclude
  | .derived o p => match o.exclude with
    | some v => some v
    | none => p.resolveExclude

/-- Lookup `getattr(opts, 'readonly_fields', None)`. -/
def MetaCls.resolveReadonlyFields : MetaCls → Option (List FName)
  | .base o => o.readonly_fields
  | .derived o p => match o.readonly_fields with
    | some v => some v
    | none => p.resolveReadonlyFields

/-- Lookup `getattr(opts, 'readonly', None)`. -/
def MetaCls.resolveReadonly : MetaCls → Option Bool
  | .base o => o.readonly
  | .derived o p => match o.readonly with
    | some v => some v
    | none => p.resolveReadonly

/-- The coercion `exclude_fields = getattr(opts, 'exclude', None) or ()`. -/
def metaOptsExclude (opts : MetaCls) : List FName :=
  opts.resolveExclude.getD []

/-- The coercion `readonly_fields = getattr(opts, 'readonly_fields', None) or ()`. -/
def metaOptsReadonlyFields (opts : MetaCls) : List FName :=
  opts.resolveReadonlyFields.getD []

/-- The coercion `readonly = getattr(opts, 'readonly', None) or False`. -/
def metaOptsReadonly (opts : MetaCls) : Bool :=
  opts.resolveReadonly.getD false

/-- One iteration of the first `SmartFormMetaclass.__new__` loop over a
snapshot of `new_class.base_fields.items()`: delete excluded names from the
live dict, and append to `base_readonly_fields` the names that are in
`readonly_fields`, or readonly by the `readonly` flag, or whose field is
`is_readonly`. -/
def meta_step1 {Req : Type} (exclude_fields readonly_fields : List FName) (readonly : Bool)
    (acc : List (FName × Field Req) × List FName) (p : FName × Field Req) :
    List (FName × Field Req) × List FName :=
  if p.1 ∈ exclude_fields then (derase acc.1 p.1, acc.2)
  else if p.1 ∈ readonly_fields ∨ readonly = true ∨ p.2.is_readonly = true then
    (acc.1, acc.2 ++ [p.1])
  else acc

/-- One iteration of the second loop, over `set(readonly_fields)`, as it
behaves on runs that complete: when the name is not in `base_fields` and the
class attrs hold a callable `formreadonlyfield_callback`, install the field
the callback creates and append the name to `base_readonly_fields`. Here
`callback` is the *effective* callback: `some g` when the attrs hold a
callable, `none` when the key is absent — or present as `None` but never
called, since calling it raises `TypeError` and the run does not complete.
The faithful, fallible iteration is `meta_step2E`; the `meta_loop2E` bridge
lemmas relate the two. -/
def meta_step2 {Req : Type} (callback : Option (FName → Field Req))
    (acc : List (FName × Field Req) × List FName) (field_name : FName) :
    List (FName × Field Req) × List FName :=
  match callback with
  | some g =>
    if (dget acc.1 field_name).isNone = true then
      (acc.1 ++ [(field_name, g field_name)], acc.2 ++ [field_name])
    else acc
  | none => acc

/-- Exception `TypeError`, raised when the code calls a non-callable — here
`attrs['formreadonlyfield_callback'](field_name)` with the callback `None`. -/
inductive PyTypeError where
  | typeErr

/-- The `formreadonlyfield_callback` entry of the class attrs: `none` when the
key is absent, `some none` when the key is present with value `None` (as
`smartform_factory` installs by default), `some (some g)` when it is present
and callable. -/
abbrev CallbackAttr (Req : Type) := Option (Option (FName → Field Req))

/-- One iteration of the second loop, faithfully: the guard is
`field_name not in new_class.base_fields and 'formreadonlyfield_callback' in
attrs` — a key-presence test — and the body then calls the attr value, so a
key present with value `None` raises `TypeError`. -/
def meta_step2E {Req : Type} (callback_attr : CallbackAttr Req)
    (acc : List (FName × Field Req) × List FName) (field_name : FName) :
    Except PyTypeError (List (FName × Field Req) × List FName) :=
  match callback_attr with
  | none => .ok acc
  | some cbv =>
    if (dget acc.1 field_name).isNone = true then
      match cbv with
      | some g => .ok (acc.1 ++ [(field_name, g field_name)], acc.2 ++ [field_name])
      | none => .error .typeErr
    else .ok acc

/-- The second loop, faithfully: a raised `TypeError` aborts the run. -/
def meta_loop2E {Req : Type} (callback_attr : CallbackAttr Req) :
    List FName → (List (FName × Field Req) × List FName) →
    Except PyTypeError (List (FName × Field Req) × List FName)
  | [], acc => .ok acc
  | fn :: ns, acc =>
    match meta_step2E callback_attr acc fn with
    | .ok acc2 => meta_loop2E callback_attr ns acc2
    | .error e => .error e

/-- Method `SmartFormMetaclass.__new__` after `DeclarativeFieldsMetaclass.__new__`,
on runs that complete: given `getattr(new_class, 'Meta', None)`, the effective
callback, and the collected `base_fields`, return the final `base_fields` and
the assigned `base_readonly_fields` (`none` when there is no `Meta`, in which
case the attribute is not assigned at all). The iteration over the Python set
`set(readonly_fields)` is fixed to first-occurrence order. The faithful,
fallible version is `smart_meta_newE`, which agrees with this one on every
completing run (bridge lemmas `smart_meta_newE_absent`,
`smart_meta_newE_callable`, `smart_meta_newE_presentNone_ok`). -/
def smart_meta_new {Req : Type} (opts : Option MetaCls)
    (callback : Option (FName → Field Req)) (fields : List (FName × Field Req)) :
    List (FName × Field Req) × Option (List FName) :=
  match opts with
  | none => (fields, none)
  | some opts =>
    let exclude_fields := metaOptsExclude opts
    let readonly_fields := metaOptsReadonlyFields opts
    let readonly := metaOptsReadonly opts
    let acc1 := fields.foldl (meta_step1 exclude_fields readonly_fields readonly) (fields, [])
    let acc2 := (firstOccurrenceOrder readonly_fields).foldl (meta_step2 callback) acc1
    (acc2.1, some acc2.2)

/-- Method `SmartFormMetaclass.__new__`, faithfully: the second loop raises
`TypeError` when a name of `set(readonly_fields)` is absent from `base_fields`
while the attrs carry `formreadonlyfield_callback = None` — the situation
`smartform_factory` produces by default. -/
def smart_meta_newE {Req : Type} (opts : Option MetaCls)
    (callback_attr : CallbackAttr Req) (fields : List (FName × Field Req)) :
    Except PyTypeError (List (FName × Field Req) × Option (List FName)) :=
  match opts with
  | none => .ok (fields, none)
  | some opts =>
    let exclude_fields := metaOptsExclude opts
    let readonly_fields := metaOptsReadonlyFields opts
    let readonly := metaOptsReadonly opts
    let acc1 := fields.foldl (meta_step1 exclude_fields readonly_fields readonly) (fields, [])
    match meta_loop2E callback_attr (firstOccurrenceOrder readonly_fields) acc1 with
    | .ok acc2 => .ok (acc2.1, some acc2.2)
    | .error e => .error e

/-- A form class as `smartform_factory` receives it: its `__name__`, its inner
`Meta` when `hasattr(form, 'Meta')`, and its collected `base_fields`. -/
structure FormCls (Req : Type) where
  clsName : String
  MetaOf : Option MetaCls
  base_fields : List (FName × Field Req)

/-- The class `smartform_factory` returns: built by the parent's metaclass
(`type(form)`, i.e. `SmartFormMetaclass`) from the parent form and the attrs
`{Meta, formreadonlyfield_callback, _request}`. `DeclarativeFieldsMetaclass`
collects the parent's `base_fields` (the factory attrs declare no fields), and
`SmartFormMetaclass.__new__` then processes them against the new `Meta`. -/
structure BuiltFormCls (Req : Type) where
  clsName : String
  parent : FormCls Req
  MetaOf : MetaCls
  formreadonlyfield_callback : Option (FName → Field Req)
  _request : Req
  base_fields : List (FName × Field Req)
  base_readonly_fields : List FName

/-- The inner `Meta` the factory builds: the attrs dict holds `exclude` and
`readonly_fields` only when those arguments are not `None` and always holds
`readonly`; the new `Meta` derives from the parent form's `Meta` when it has
one (`Meta = type(str('Meta'), parent, attrs)`). -/
def factoryMeta {Req : Type} (form : FormCls Req)
    (readonly_fields exclude : Option (List FName)) (readonly : Bool) : MetaCls :=
  match form.MetaOf with
  | some parentMetaC => .derived ⟨exclude, readonly_fields, some readonly⟩ parentMetaC
  | none => .base ⟨exclude, readonly_fields, some readonly⟩

/-- The factory `smartform_factory(request, form, readonly_fields, exclude,
formreadonlyfield_callback, readonly)`: build the new `Meta` (`factoryMeta`)
and create the new class through the parent's metaclass. The class attrs
always carry the `formreadonlyfield_callback` key (its default value is
`None`), so the metaclass run can raise `TypeError`, and then no class is
returned. -/
def smartform_factory {Req : Type} (request : Req) (form : FormCls Req)
    (readonly_fields : Option (List FName)) (exclude : Option (List FName))
    (formreadonlyfield_callback : Option (FName → Field Req)) (readonly : Bool) :
    Except PyTypeError (BuiltFormCls Req) :=
  match smart_meta_newE (some (factoryMeta form readonly_fields exclude readonly))
    (some formreadonlyfield_callback) form.base_fields with
  | .ok processed =>
    .ok { clsName := form.clsName
          parent := form
          MetaOf := factoryMeta form readonly_fields exclude readonly
          formreadonlyfield_callback := formreadonlyfield_callback
          _request := request
          base_fields := processed.1
          base_readonly_fields := processed.2.getD [] }
  | .error e => .error e

/-- Specification-side description of the base fields the metaclass keeps:
the declared fields whose names are not excluded. -/
def metaKeptFields {Req : Type} (exclude_fields : List FName)
    (fields : List (FName × Field Req)) : List (FName × Field Req) :=
  fields.filter (fun p => p.1 ∉ exclude_fields)

/-- The fields a present callback creates for the names of `ns` that are
absent from the dict `b`. -/
def createdFieldsFrom {Req : Type} (callback : Option (FName → Field Req))
    (b : List (FName × Field Req)) (ns : List FName) : List (FName × Field Req) :=
  ns.filterMap (fun fn =>
    match callback with
    | some g => if (dget b fn).isNone = true then some (fn, g fn) else none
    | none => none)

/-- Specification-side description of the fields the readonly-field callback
creates: one per name of `readonly_fields` (first occurrences, matching the
fixed set order) that is absent from the kept fields, provided a callback is
in the class attrs. -/
def metaCreatedFields {Req : Type} (callback : Option (FName → Field Req))
    (readonly_fields : List FName) (kept : List (FName × Field Req)) :
    List (FName × Field Req) :=
  createdFieldsFrom callback kept (firstOccurrenceOrder readonly_fields)

/-- Specification-side description of the readonly names collected from the
kept base fields. -/
def metaReadonlyNames {Req : Type} (readonly_fields : List FName) (readonly : Bool)
    (kept : List (FName × Field Req)) : List FName :=
  (kept.filter
    (fun p => p.1 ∈ readonly_fields ∨ readonly = true ∨ p.2.is_readonly = true)).map
    Prod.fst

/-! ### Sample concrete objects used by witnesses -/

/-- A concrete widget over `Req := Nat`. -/
def sampleWidget : Widget Nat where
  attrs := []
  is_localized := false
  isSmartWidget := false
  render := fun n v _ => n ++ "=" ++ toString v
  smart_render := fun _ n v _ => "smart:" ++ n ++ "=" ++ toString v
  value_from_datadict := fun d _ key => (dget d key).getD ""

/-- A concrete field over `Req := Nat`. -/
def sampleField : Field Nat where
  is_readonly := false
  localize := false
  widget := sampleWidget
  readonly_widget := none
  initial := PyData.obj 0
  prepare_value := fun d => match d with
    | PyData.obj v => v
    | PyData.callableObj _ => -1
  clean := fun r => if r = "bad" then Except.error ⟨["invalid"]⟩ else Except.ok (r.length : Int)
  cleanWithInitial := fun r _ => Except.ok (r.length : Int)
  isFileField := false

/-- A concrete form with one editable field `a` and one readonly field `b`. -/
def sampleForm : Form Nat where
  _request := 0
  fields := [("a", sampleField), ("b", sampleField)]
  base_readonly_fields := ["b"]
  data := [("a", "hello")]
  files := []
  initial := [("a", PyData.obj 7)]
  htmlNameOf := fun n => n
  htmlInitialNameOf := fun n => "initial-" ++ n
  autoIdOf := fun n => "id_" ++ n
  htmlInitialIdOf := fun n => "initial-id_" ++ n
  frameworkValue := fun _ => 1
  cleanHook := fun _ => none

/-- Copy of `sampleForm` with different submitted data, all else equal. -/
def sampleFormAltData : Form Nat := { sampleForm with data := [("a", "XYZ"), ("q", "1")] }

/-! ### Claims C2, C6, C10 -/

/-- Claim C2: for every name present in `self.fields`, `__getitem__` returns a
`ReadonlyBoundField` (with `is_readonly = True`) when the name is in
`base_readonly_fields` and a `SmartBoundField` (`is_readonly = False`)
otherwise, built from this form, that field and that name; for every absent
name it raises `KeyError`. -/
theorem c2_getitem_readonly_dispatch {Req : Type} (form : Form Req) (name : FName) :
    (∀ field, dget form.fields name = some field →
      ∃ bf, getitem form name = Except.ok bf ∧
        bf.kind = (if form.base_readonly_fields.contains name then BFKind.readonly
          else BFKind.smart) ∧
        bf.is_readonly = form.base_readonly_fields.contains name ∧
        bf.form = form ∧ bf.field = field ∧ bf.name = name) ∧
    (dget form.fields name = none →
      getitem form name =
        Except.error (FormErr.keyError ("Key " ++ name ++ " not found in Form"))) := by
  constructor
  · intro field hf
    by_cases hro : form.base_readonly_fields.contains name = true
    · have hmem : name ∈ form.base_readonly_fields := by simpa using hro
      refine ⟨⟨.readonly, form, field, name⟩, ?_, ?_, ?_, rfl, rfl, rfl⟩
      · simp [getitem, hf, hmem]
      · simp [hmem]
      · simp [BField.is_readonly, hmem]
    · have hnm : name ∉ form.base_readonly_fields := by simpa using hro
      refine ⟨⟨.smart, form, field, name⟩, ?_, ?_, ?_, rfl, rfl, rfl⟩
      · simp [getitem, hf, hnm]
      · simp [hnm]
      · simp [BField.is_readonly, hnm]
  · intro hf
    simp [getitem, hf]

/-- Witness for C2: the readonly field `b` of `sampleForm` and the missing
name `c`. -/
theorem c2_getitem_readonly_dispatch_witness :
    (∃ bf, getitem sampleForm "b" = Except.ok bf ∧
      bf.kind = (if sampleForm.base_readonly_fields.contains "b" then BFKind.readonly
        else BFKind.smart) ∧
      bf.is_readonly = sampleForm.base_readonly_fields.contains "b" ∧
      bf.form = sampleForm ∧ bf.field = sampleField ∧ bf.name = "b") ∧
    getitem sampleForm "c" =
      Except.error (FormErr.keyError ("Key " ++ "c" ++ " not found in Form")) :=
  ⟨(c2_getitem_readonly_dispatch sampleForm "b").1 sampleField rfl,
   (c2_getitem_readonly_dispatch sampleForm "c").2 rfl⟩

/-- Claim C10: `ReadonlyBoundField.value()` is independent of the submitted
data: forms agreeing on `initial` — in particular forms equal except for their
data dictionaries — give the same value, namely `field.prepare_value` of
`form.initial.get(name, field.initial)`, called first if callable. -/
theorem c10_readonly_value_data_independent {Req : Type} (f1 f2 : Form Req)
    (field : Field Req) (name : FName) (hinit : f1.initial = f2.initial) :
    readonlyValue f1 field name = readonlyValue f2 field name ∧
    readonlyValue f1 field name =
      field.prepare_value (callIfCallable ((dget f1.initial name).getD field.initial)) ∧
    BField.value ⟨BFKind.readonly, f1, field, name⟩ = readonlyValue f1 field name := by
  refine ⟨?_, rfl, rfl⟩
  unfold readonlyValue
  rw [hinit]

/-- Witness for C10: `sampleForm` against the same form with other data. -/
theorem c10_readonly_value_data_independent_witness :
    readonlyValue sampleForm sampleField "a" = readonlyValue sampleFormAltData sampleField "a" ∧
    readonlyValue sampleForm sampleField "a" =
      sampleField.prepare_value
        (callIfCallable ((dget sampleForm.initial "a").getD sampleField.initial)) ∧
    BField.value ⟨BFKind.readonly, sampleForm, sampleField, "a"⟩ =
      readonlyValue sampleForm sampleField "a" :=
  c10_readonly_value_data_independent sampleForm sampleFormAltData sampleField "a" rfl

/-- Claim C6: `as_widget` uses the field's default widget when no widget is
passed; the (possibly localized) resulting widget renders through
`smart_render(form._request, name, value, attrs)` when it is a
`SmartWidgetMixin` and through `render(name, value, attrs)` otherwise; and on
a `ReadonlyBoundField` the widget is first replaced by
`_get_readonly_widget`. -/
theorem c6_as_widget_delegation {Req : Type} (form : Form Req) (field : Field Req)
    (name : FName) (kind : BFKind) (widgetArg : Option (Widget Req))
    (attrsArg : Option AttrL) (only_initial : Bool) :
    BField.as_widget ⟨kind, form, field, name⟩ none attrsArg only_initial =
      BField.as_widget ⟨kind, form, field, name⟩ (some field.widget) attrsArg only_initial ∧
    BField.as_widget ⟨kind, form, field, name⟩ widgetArg attrsArg only_initial =
      (let w0 := widgetArg.getD field.widget
       let w1 := match kind with
         | BFKind.smart => w0
         | BFKind.readonly => _get_readonly_widget form name field w0
       let w2 := if field.localize then { w1 with is_localized := true } else w1
       let attrs0 := attrsArg.getD []
       let attrs :=
         if form.autoIdOf name ≠ "" ∧ (dget attrs0 "id").isNone ∧
             (dget w2.attrs "id").isNone then
           if !only_initial then dset attrs0 "id" (form.autoIdOf name)
           else dset attrs0 "id" (form.htmlInitialIdOf name)
         else attrs0
       let rname := if !only_initial then form.htmlNameOf name
         else form.htmlInitialNameOf name
       if w2.isSmartWidget then
         w2.smart_render form._request rname (BField.value ⟨kind, form, field, name⟩) attrs
       else w2.render rname (BField.value ⟨kind, form, field, name⟩) attrs) := by
  cases kind <;> exact ⟨rfl, rfl⟩

/-! ### Lemmas about `_clean_fields` -/

theorem contains_true_iff {l : List String} {a : String} :
    l.contains a = true ↔ a ∈ l := by
  simp

/-- A readonly name is skipped: the loop body leaves the state unchanged. -/
theorem clean_step_skip {Req : Type} (form : Form Req) (st : CleanState) (name : FName)
    (field : Field Req) (hro : name ∈ form.base_readonly_fields) :
    _clean_field_step form st name field = st := by
  unfold _clean_field_step
  split
  · rfl
  · next hc => exact absurd hro (by simpa using hc)

/-- A non-readonly name takes the try-block branch. -/
theorem clean_step_not_readonly {Req : Type} (form : Form Req) (st : CleanState)
    (name : FName) (field : Field Req) (hro : name ∉ form.base_readonly_fields) :
    _clean_field_step form st name field =
      (match clean_value form field name with
       | .error e => ⟨derase st.cleaned_data name, dset st._errors name e.messages⟩
       | .ok v =>
         match form.cleanHook name with
         | none => ⟨dset st.cleaned_data name v, st._errors⟩
         | some hook =>
           match hook (dset st.cleaned_data name v) with
           | .ok v2 => ⟨dset (dset st.cleaned_data name v) name v2, st._errors⟩
           | .error e =>
             ⟨derase (dset st.cleaned_data name v) name, dset st._errors name e.messages⟩) := by
  unfold _clean_field_step
  split
  · next hc => exact absurd (by simpa using hc) hro
  · rfl

/-- Processing one field only touches the entries of its own name. -/
theorem clean_step_preserve {Req : Type} (form : Form Req) (st : CleanState) (n : FName)
    (f : Field Req) (name : FName) (hne : n ≠ name) :
    dget (_clean_field_step form st n f).cleaned_data name = dget st.cleaned_data name ∧
    dget (_clean_field_step form st n f)._errors name = dget st._errors name := by
  have hns : name ≠ n := fun hh => hne hh.symm
  unfold _clean_field_step
  split
  · exact ⟨rfl, rfl⟩
  · split
    · exact ⟨dget_derase_ne _ hns, dget_dset_ne _ _ hns⟩
    · split
      · exact ⟨dget_dset_ne _ _ hns, rfl⟩
      · split
        · refine ⟨?_, rfl⟩
          rw [dget_dset_ne _ _ hns, dget_dset_ne _ _ hns]
        · refine ⟨?_, dget_dset_ne _ _ hns⟩
          rw [dget_derase_ne _ hns, dget_dset_ne _ _ hns]

theorem clean_fold_preserve {Req : Type} (form : Form Req)
    (fields : List (FName × Field Req)) (st : CleanState) (name : FName)
    (h : ∀ p ∈ fields, p.1 ≠ name) :
    dget (fields.foldl (fun s p => _clean_field_step form s p.1 p.2) st).cleaned_data name =
      dget st.cleaned_data name ∧
    dget (fields.foldl (fun s p => _clean_field_step form s p.1 p.2) st)._errors name =
      dget st._errors name := by
  induction fields generalizing st with
  | nil => exact ⟨rfl, rfl⟩
  | cons p fs ih =>
    have h1 : p.1 ≠ name := h p (List.mem_cons_self _ _)
    have h2 : ∀ q ∈ fs, q.1 ≠ name := fun q hq => h q (List.mem_cons_of_mem _ hq)
    have hstep := clean_step_preserve form st p.1 p.2 name h1
    have hfold := ih (_clean_field_step form st p.1 p.2) h2
    simp only [List.foldl_cons]
    exact ⟨hfold.1.trans hstep.1, hfold.2.trans hstep.2⟩

/-- The whole loop never touches the entries of a readonly name. -/
theorem clean_fold_readonly_preserve {Req : Type} (form : Form Req)
    (fields : List (FName × Field Req)) (st : CleanState) (name : FName)
    (hro : name ∈ form.base_readonly_fields) :
    dget (fields.foldl (fun s p => _clean_field_step form s p.1 p.2) st).cleaned_data name =
      dget st.cleaned_data name ∧
    dget (fields.foldl (fun s p => _clean_field_step form s p.1 p.2) st)._errors name =
      dget st._errors name := by
  induction fields generalizing st with
  | nil => exact ⟨rfl, rfl⟩
  | cons p fs ih =>
    simp only [List.foldl_cons]
    by_cases hn : p.1 = name
    · have hskip : _clean_field_step form st p.1 p.2 = st :=
        clean_step_skip form st p.1 p.2 (by rw [hn]; exact hro)
      rw [hskip]
      exact ih st
    · have hstep := clean_step_preserve form st p.1 p.2 name hn
      have hfold := ih (_clean_field_step form st p.1 p.2)
      exact ⟨hfold.1.trans hstep.1, hfold.2.trans hstep.2⟩

theorem clean_step_keys_nodup {Req : Type} (form : Form Req) (st : CleanState) (n : FName)
    (f : Field Req) (h1 : (st.cleaned_data.map Prod.fst).Nodup)
    (h2 : (st._errors.map Prod.fst).Nodup) :
    ((_clean_field_step form st n f).cleaned_data.map Prod.fst).Nodup ∧
    ((_clean_field_step form st n f)._errors.map Prod.fst).Nodup := by
  unfold _clean_field_step
  split
  · exact ⟨h1, h2⟩
  · split
    · exact ⟨keys_derase_nodup _ _ h1, keys_dset_nodup _ _ _ h2⟩
    · split
      · exact ⟨keys_dset_nodup _ _ _ h1, h2⟩
      · split
        · exact ⟨keys_dset_nodup _ _ _ (keys_dset_nodup _ _ _ h1), h2⟩
        · exact ⟨keys_derase_nodup _ _ (keys_dset_nodup _ _ _ h1), keys_dset_nodup _ _ _ h2⟩

theorem clean_fold_keys_nodup {Req : Type} (form : Form Req)
    (fields : List (FName × Field Req)) (st : CleanState)
    (h1 : (st.cleaned_data.map Prod.fst).Nodup)
    (h2 : (st._errors.map Prod.fst).Nodup) :
    ((fields.foldl (fun s p => _clean_field_step form s p.1 p.2) st).cleaned_data.map
      Prod.fst).Nodup ∧
    ((fields.foldl (fun s p => _clean_field_step form s p.1 p.2) st)._errors.map
      Prod.fst).Nodup := by
  induction fields generalizing st with
  | nil => exact ⟨h1, h2⟩
  | cons p fs ih =>
    simp only [List.foldl_cons]
    have hstep := clean_step_keys_nodup form st p.1 p.2 h1 h2
    exact ih (_clean_field_step form st p.1 p.2) hstep.1 hstep.2

theorem cleanStateAfter_keys_nodup {Req : Type} (form : Form Req)
    (pre : List (FName × Field Req)) :
    ((cleanStateAfter form pre).cleaned_data.map Prod.fst).Nodup ∧
    ((cleanStateAfter form pre)._errors.map Prod.fst).Nodup :=
  clean_fold_keys_nodup form pre ⟨[], []⟩ (by simp) (by simp)

/-- Successful outcome: the cleaned value is stored, the errors are untouched. -/
theorem clean_step_ok_self {Req : Type} (form : Form Req) (st : CleanState) (n : FName)
    (f : Field Req) (v : Int) (hro : n ∉ form.base_readonly_fields)
    (hout : fieldOutcome form st n f = Except.ok v) :
    dget (_clean_field_step form st n f).cleaned_data n = some v ∧
    dget (_clean_field_step form st n f)._errors n = dget st._errors n := by
  rw [clean_step_not_readonly form st n f hro]
  unfold fieldOutcome at hout
  cases hcv : clean_value form f n with
  | error e =>
    rw [hcv] at hout
    simp at hout
  | ok w =>
    rw [hcv] at hout
    simp only at hout
    cases hh : form.cleanHook n with
    | none =>
      rw [hh] at hout
      simp only at hout
      have hv : w = v := by simpa using hout
      subst hv
      simp only [hcv, hh]
      exact ⟨dget_dset_self _ _ _, trivial⟩
    | some hook =>
      rw [hh] at hout
      simp only at hout
      cases hr : hook (dset st.cleaned_data n w) with
      | ok v2 =>
        rw [hr] at hout
        have hv : v2 = v := by simpa using hout
        subst hv
        simp only [hcv, hh, hr]
        exact ⟨dget_dset_self _ _ _, trivial⟩
      | error e =>
        rw [hr] at hout
        simp at hout

/-- Raised `ValidationError`: the message list is stored under the name in
`_errors` and the name is absent from `cleaned_data`, even when an
intermediate value had been stored. -/
theorem clean_step_err_self {Req : Type} (form : Form Req) (st : CleanState) (n : FName)
    (f : Field Req) (e : VErr) (hro : n ∉ form.base_readonly_fields)
    (h1 : (st.cleaned_data.map Prod.fst).Nodup)
    (hout : fieldOutcome form st n f = Except.error e) :
    dget (_clean_field_step form st n f).cleaned_data n = none ∧
    dget (_clean_field_step form st n f)._errors n = some e.messages := by
  rw [clean_step_not_readonly form st n f hro]
  unfold fieldOutcome at hout
  cases hcv : clean_value form f n with
  | error e' =>
    rw [hcv] at hout
    have he : e' = e := by simpa using hout
    subst he
    simp only [hcv]
    exact ⟨dget_derase_self _ _ h1, dget_dset_self _ _ _⟩
  | ok w =>
    rw [hcv] at hout
    simp only at hout
    cases hh : form.cleanHook n with
    | none =>
      rw [hh] at hout
      simp at hout
    | some hook =>
      rw [hh] at hout
      simp only at hout
      cases hr : hook (dset st.cleaned_data n w) with
      | ok v2 =>
        rw [hr] at hout
        simp at hout
      | error e' =>
        rw [hr] at hout
        have he : e' = e := by simpa using hout
        subst he
        simp only [hcv, hh, hr]
        exact ⟨dget_derase_self _ _ (keys_dset_nodup _ _ _ h1), dget_dset_self _ _ _⟩

/-- Splitting `_clean_fields` at one entry of the field list. -/
theorem clean_fields_decompose {Req : Type} (form : Form Req)
    (pre : List (FName × Field Req)) (name : FName) (field : Field Req)
    (post : List (FName × Field Req))
    (heq : form.fields = pre ++ (name, field) :: post) :
    _clean_fields form =
      post.foldl (fun s p => _clean_field_step form s p.1 p.2)
        (_clean_field_step form (cleanStateAfter form pre) name field) := by
  unfold _clean_fields cleanStateAfter
  rw [heq, List.foldl_append, List.foldl_cons]

theorem mid_not_mem_post {Req : Type} {form : Form Req}
    {pre post : List (FName × Field Req)} {name : FName} {field : Field Req}
    (heq : form.fields = pre ++ (name, field) :: post)
    (hnodup : (form.fields.map Prod.fst).Nodup) :
    ∀ p ∈ post, p.1 ≠ name := by
  rw [heq] at hnodup
  simp only [List.map_append, List.map_cons] at hnodup
  have h2 : (name :: post.map Prod.fst).Nodup := (List.nodup_append.1 hnodup).2.1
  have h3 : name ∉ post.map Prod.fst := (List.nodup_cons.1 h2).1
  intro p hp hcontra
  exact h3 (hcontra ▸ List.mem_map_of_mem Prod.fst hp)

/-- Changing the submitted data does not change the loop body on a field whose
extracted value is unchanged (in particular it never matters for readonly
names, which are skipped before any data access). -/
theorem clean_step_data_congr {Req : Type} (form : Form Req) (d2 f2 : DataDict)
    (st : CleanState) (p : FName × Field Req)
    (h : p.1 ∉ form.base_readonly_fields →
      p.2.widget.value_from_datadict d2 f2 (form.htmlNameOf p.1) =
        p.2.widget.value_from_datadict form.data form.files (form.htmlNameOf p.1)) :
    _clean_field_step { form with data := d2, files := f2 } st p.1 p.2 =
      _clean_field_step form st p.1 p.2 := by
  by_cases hro : p.1 ∈ form.base_readonly_fields
  · rw [clean_step_skip { form with data := d2, files := f2 } st p.1 p.2 hro,
      clean_step_skip form st p.1 p.2 hro]
  · have hcv : clean_value { form with data := d2, files := f2 } p.2 p.1 =
        clean_value form p.2 p.1 := by
      unfold clean_value
      dsimp only
      rw [h hro]
    rw [clean_step_not_readonly { form with data := d2, files := f2 } st p.1 p.2 hro,
      clean_step_not_readonly form st p.1 p.2 hro]
    dsimp only
    rw [hcv]

theorem clean_fold_data_congr {Req : Type} (form : Form Req) (d2 f2 : DataDict)
    (fields : List (FName × Field Req)) (st : CleanState)
    (h : ∀ p ∈ fields, p.1 ∉ form.base_readonly_fields →
      p.2.widget.value_from_datadict d2 f2 (form.htmlNameOf p.1) =
        p.2.widget.value_from_datadict form.data form.files (form.htmlNameOf p.1)) :
    fields.foldl
        (fun s p => _clean_field_step { form with data := d2, files := f2 } s p.1 p.2) st =
      fields.foldl (fun s p => _clean_field_step form s p.1 p.2) st := by
  induction fields generalizing st with
  | nil => rfl
  | cons p fs ih =>
    simp only [List.foldl_cons]
    rw [clean_step_data_congr form d2 f2 st p (h p (List.mem_cons_self _ _))]
    exact ih _ (fun q hq => h q (List.mem_cons_of_mem _ hq))

/-! ### Claims C1 and C9 -/

/-- Claim C1: `_clean_fields` skips every name in `base_readonly_fields`
entirely — it writes neither `cleaned_data[name]` nor `_errors[name]` for it
(part 1), and never reads the submitted data for it: only the values the
widgets of non-readonly fields extract matter (part 2) — while every field
name not in `base_readonly_fields` is cleaned from the submitted data: it ends
up in `cleaned_data` or in `_errors` (part 3). -/
theorem c1_clean_fields_skips_readonly {Req : Type} (form : Form Req) :
    (∀ name, name ∈ form.base_readonly_fields →
      dget (_clean_fields form).cleaned_data name = none ∧
      dget (_clean_fields form)._errors name = none) ∧
    (∀ d2 f2 : DataDict,
      (∀ p ∈ form.fields, p.1 ∉ form.base_readonly_fields →
        p.2.widget.value_from_datadict d2 f2 (form.htmlNameOf p.1) =
          p.2.widget.value_from_datadict form.data form.files (form.htmlNameOf p.1)) →
      _clean_fields { form with data := d2, files := f2 } = _clean_fields form) ∧
    (∀ pre name field post, form.fields = pre ++ (name, field) :: post →
      (form.fields.map Prod.fst).Nodup → name ∉ form.base_readonly_fields →
      ((dget (_clean_fields form).cleaned_data name).isSome = true ∨
        (dget (_clean_fields form)._errors name).isSome = true)) := by
  refine ⟨?_, ?_, ?_⟩
  · intro name hro
    exact clean_fold_readonly_preserve form form.fields ⟨[], []⟩ name hro
  · intro d2 f2 h
    exact clean_fold_data_congr form d2 f2 form.fields ⟨[], []⟩ h
  · intro pre name field post heq hnodup hro
    rw [clean_fields_decompose form pre name field post heq]
    have hpost := mid_not_mem_post heq hnodup
    have hpres := clean_fold_preserve form post
      (_clean_field_step form (cleanStateAfter form pre) name field) name hpost
    cases hout : fieldOutcome form (cleanStateAfter form pre) name field with
    | ok v =>
      left
      rw [hpres.1, (clean_step_ok_self form (cleanStateAfter form pre) name field v
        hro hout).1]
      rfl
    | error e =>
      right
      rw [hpres.2, (clean_step_err_self form (cleanStateAfter form pre) name field e
        hro (cleanStateAfter_keys_nodup form pre).1 hout).2]
      rfl

/-- Witness for C1: on `sampleForm` (readonly `b`, editable `a`) readonly `b`
gets no entry, extra unrelated submitted data changes nothing, and `a` is
cleaned. -/
theorem c1_clean_fields_skips_readonly_witness :
    (dget (_clean_fields sampleForm).cleaned_data "b" = none ∧
      dget (_clean_fields sampleForm)._errors "b" = none) ∧
    _clean_fields { sampleForm with data := [("a", "hello"), ("zzz", "ignored")], files := [] }
      = _clean_fields sampleForm ∧
    ((dget (_clean_fields sampleForm).cleaned_data "a").isSome = true ∨
      (dget (_clean_fields sampleForm)._errors "a").isSome = true) := by
  have h := c1_clean_fields_skips_readonly sampleForm
  refine ⟨h.1 "b" (by simp [sampleForm]), h.2.1 _ _ ?_, h.2.2 [] "a" sampleField
    [("b", sampleField)] rfl (by decide) (by decide)⟩
  intro p hp hro
  have hp' : p = ("a", sampleField) ∨ p = ("b", sampleField) := by
    simpa [sampleForm] using hp
  rcases hp' with h' | h'
  · subst h'
    rfl
  · subst h'
    exact absurd (by simp [sampleForm]) hro

/-- Invariant carried through the `_clean_fields` loop: starting from a state
whose dictionaries have unique keys, are name-disjoint, and are fresh for all
upcoming field names, the two dictionaries stay disjoint. -/
theorem clean_fold_disjoint {Req : Type} (form : Form Req)
    (fields : List (FName × Field Req)) (st : CleanState)
    (h1 : (st.cleaned_data.map Prod.fst).Nodup)
    (h2 : (st._errors.map Prod.fst).Nodup)
    (h3 : ∀ nm, ¬((dget st.cleaned_data nm).isSome = true ∧
      (dget st._errors nm).isSome = true))
    (h4 : ∀ p ∈ fields, dget st.cleaned_data p.1 = none ∧ dget st._errors p.1 = none)
    (h5 : (fields.map Prod.fst).Nodup) :
    ∀ nm, ¬((dget (fields.foldl (fun s p => _clean_field_step form s p.1 p.2)
        st).cleaned_data nm).isSome = true ∧
      (dget (fields.foldl (fun s p => _clean_field_step form s p.1 p.2)
        st)._errors nm).isSome = true) := by
  induction fields generalizing st with
  | nil => exact h3
  | cons p fs ih =>
    obtain ⟨n, f⟩ := p
    simp only [List.map_cons, List.nodup_cons] at h5
    simp only [List.foldl_cons]
    have hkeys := clean_step_keys_nodup form st n f h1 h2
    refine ih (_clean_field_step form st n f) hkeys.1 hkeys.2 ?_ ?_ h5.2
    · intro nm
      by_cases hro : n ∈ form.base_readonly_fields
      · rw [clean_step_skip form st n f hro]
        exact h3 nm
      · by_cases hnm : nm = n
        · subst hnm
          cases hout : fieldOutcome form st nm f with
          | ok v =>
            have hs := clean_step_ok_self form st nm f v hro hout
            rintro ⟨hc, he⟩
            rw [hs.2, (h4 (nm, f) (List.mem_cons_self _ _)).2] at he
            simp at he
          | error e =>
            have hs := clean_step_err_self form st nm f e hro h1 hout
            rintro ⟨hc, he⟩
            rw [hs.1] at hc
            simp at hc
        · have hp := clean_step_preserve form st n f nm (fun hh => hnm hh.symm)
          rintro ⟨hc, he⟩
          rw [hp.1] at hc
          rw [hp.2] at he
          exact h3 nm ⟨hc, he⟩
    · intro q hq
      have hqn : q.1 ≠ n := by
        intro hh
        exact h5.1 (hh ▸ List.mem_map_of_mem Prod.fst hq)
      have hp := clean_step_preserve form st n f q.1 (fun hh => hqn hh.symm)
      have h4q := h4 q (List.mem_cons_of_mem _ hq)
      exact ⟨hp.1.trans h4q.1, hp.2.trans h4q.2⟩

/-- Claim C9: after `_clean_fields`, `_errors` and `cleaned_data` are disjoint
on names (part 1), and for every field whose `field.clean` or `clean_<name>`
hook raised `ValidationError`, the name carries the error messages in
`_errors` and is absent from `cleaned_data`, even though an intermediate value
may have been stored before the hook raised (part 2). -/
theorem c9_errors_cleaned_data_disjoint {Req : Type} (form : Form Req)
    (hnodup : (form.fields.map Prod.fst).Nodup) :
    (∀ name, ¬((dget (_clean_fields form).cleaned_data name).isSome = true ∧
      (dget (_clean_fields form)._errors name).isSome = true)) ∧
    (∀ pre name field post e, form.fields = pre ++ (name, field) :: post →
      name ∉ form.base_readonly_fields →
      fieldOutcome form (cleanStateAfter form pre) name field = Except.error e →
      dget (_clean_fields form)._errors name = some e.messages ∧
      dget (_clean_fields form).cleaned_data name = none) := by
  constructor
  · exact clean_fold_disjoint form form.fields ⟨[], []⟩ (by simp) (by simp)
      (fun nm h => by simp [dget] at h) (fun p _ => ⟨rfl, rfl⟩) hnodup
  · intro pre name field post e heq hro hout
    rw [clean_fields_decompose form pre name field post heq]
    have hpost := mid_not_mem_post heq hnodup
    have hpres := clean_fold_preserve form post
      (_clean_field_step form (cleanStateAfter form pre) name field) name hpost
    have hs := clean_step_err_self form (cleanStateAfter form pre) name field e hro
      (cleanStateAfter_keys_nodup form pre).1 hout
    exact ⟨hpres.2.trans hs.2, hpres.1.trans hs.1⟩

/-- Witness for C9: `sampleForm` with submitted data making field `a` raise. -/
theorem c9_errors_cleaned_data_disjoint_witness :
    (¬((dget (_clean_fields { sampleForm with data := [("a", "bad")] }).cleaned_data
        "a").isSome = true ∧
      (dget (_clean_fields { sampleForm with data := [("a", "bad")] })._errors
        "a").isSome = true)) ∧
    dget (_clean_fields { sampleForm with data := [("a", "bad")] })._errors "a" =
      some (VErr.mk ["invalid"]).messages ∧
    dget (_clean_fields { sampleForm with data := [("a", "bad")] }).cleaned_data "a" =
      none := by
  have h := c9_errors_cleaned_data_disjoint { sampleForm with data := [("a", "bad")] }
    (by decide)
  have h2 := h.2 [] "a" sampleField [("b", sampleField)] ⟨["invalid"]⟩ rfl (by decide) rfl
  exact ⟨h.1 "a", h2.1, h2.2⟩


/-! ### Lemmas about `SmartFormMetaclass.__new__` -/

theorem firstOccurrenceOrder_nil : firstOccurrenceOrder [] = [] := by
  rw [firstOccurrenceOrder]

theorem mem_firstOccurrenceOrder (a : String) :
    ∀ ls : List String, a ∈ firstOccurrenceOrder ls → a ∈ ls := by
  intro ls
  induction ls using firstOccurrenceOrder.induct with
  | case1 =>
    intro h
    rw [firstOccurrenceOrder_nil] at h
    simp at h
  | case2 l ls ih =>
    intro h
    rw [firstOccurrenceOrder_cons] at h
    rcases List.mem_cons.1 h with h' | h'
    · subst h'
      exact List.mem_cons_self _ _
    · exact List.mem_cons_of_mem _ (List.mem_of_mem_filter (ih h'))

theorem firstOccurrenceOrder_nodup (ls : List String) :
    (firstOccurrenceOrder ls).Nodup := by
  induction ls using firstOccurrenceOrder.induct with
  | case1 =>
    rw [firstOccurrenceOrder_nil]
    exact List.nodup_nil
  | case2 l ls ih =>
    rw [firstOccurrenceOrder_cons]
    refine List.nodup_cons.2 ⟨?_, ih⟩
    intro hmem
    have h1 := mem_firstOccurrenceOrder l _ hmem
    have h2 := List.of_mem_filter h1
    simp at h2

/-- On a unique-key dict, `derase` is a filter. -/
theorem derase_eq_filter {α : Type} (d : List (String × α)) (k : String)
    (h : (d.map Prod.fst).Nodup) :
    derase d k = d.filter (fun q => q.1 ≠ k) := by
  induction d with
  | nil => rfl
  | cons p d ih =>
    obtain ⟨k₀, v₀⟩ := p
    simp only [List.map_cons, List.nodup_cons] at h
    by_cases hk : k₀ = k
    · subst hk
      have hfilter : List.filter (fun q => !decide (q.1 = k₀)) d = d := by
        apply List.filter_eq_self.2
        intro q hq
        have hne : q.1 ≠ k₀ := fun hqk => h.1 (hqk ▸ List.mem_map_of_mem Prod.fst hq)
        simp [hne]
      simp [derase, List.filter_cons, hfilter]
    · simp [derase, List.filter_cons, hk, ih h.2]

/-- The second component built by the first metaclass loop. -/
theorem meta_loop1_snd {Req : Type} (ex rf : List FName) (ro : Bool)
    (s : List (FName × Field Req)) :
    ∀ acc : List (FName × Field Req) × List FName,
    (s.foldl (meta_step1 ex rf ro) acc).2 =
      acc.2 ++ s.filterMap (fun p =>
        if p.1 ∈ ex then none
        else if p.1 ∈ rf ∨ ro = true ∨ p.2.is_readonly = true then some p.1 else none) := by
  induction s with
  | nil =>
    intro acc
    simp
  | cons p s ih =>
    intro acc
    simp only [List.foldl_cons, List.filterMap_cons]
    by_cases h1 : p.1 ∈ ex
    · simp [meta_step1, h1, ih]
    · by_cases h2 : p.1 ∈ rf ∨ ro = true ∨ p.2.is_readonly = true
      · simp [meta_step1, h1, h2, ih]
      · simp [meta_step1, h1, h2, ih]

/-- The first component built by the first metaclass loop: the same as folding
the deletions alone. -/
theorem meta_loop1_fst {Req : Type} (ex rf : List FName) (ro : Bool)
    (s : List (FName × Field Req)) :
    ∀ acc : List (FName × Field Req) × List FName,
    (s.foldl (meta_step1 ex rf ro) acc).1 =
      s.foldl (fun b p => if p.1 ∈ ex then derase b p.1 else b) acc.1 := by
  induction s with
  | nil =>
    intro acc
    rfl
  | cons p s ih =>
    intro acc
    simp only [List.foldl_cons]
    by_cases h1 : p.1 ∈ ex
    · simp [meta_step1, h1, ih]
    · by_cases h2 : p.1 ∈ rf ∨ ro = true ∨ p.2.is_readonly = true
      · simp [meta_step1, h1, h2, ih]
      · simp [meta_step1, h1, h2, ih]

/-- Folding the deletions over a snapshot equals filtering, on unique keys. -/
theorem foldl_derase_filter {Req : Type} (ex : List FName) :
    ∀ (s bf : List (FName × Field Req)), (bf.map Prod.fst).Nodup →
    s.foldl (fun b p => if p.1 ∈ ex then derase b p.1 else b) bf =
      bf.filter (fun q => ¬(q.1 ∈ ex ∧ q.1 ∈ s.map Prod.fst)) := by
  intro s
  induction s with
  | nil =>
    intro bf _
    simp
  | cons p s ih =>
    intro bf hnodup
    simp only [List.foldl_cons]
    by_cases h1 : p.1 ∈ ex
    · rw [if_pos h1]
      rw [ih (derase bf p.1) (keys_derase_nodup bf p.1 hnodup)]
      rw [derase_eq_filter bf p.1 hnodup, List.filter_filter]
      apply List.filter_congr
      intro q _
      by_cases hq : q.1 = p.1
      · simp [hq, h1]
      · have hbeq : (q.1 == p.1) = false := by simp [hq]
        simp [hq, hbeq]
    · rw [if_neg h1]
      rw [ih bf hnodup]
      apply List.filter_congr
      intro q _
      by_cases hq : q.1 = p.1
      · rw [hq]
        simp [h1]
      · have hbeq : (q.1 == p.1) = false := by simp [hq]
        simp [hq, hbeq]

/-- The readonly names collected by the first loop are the kept fields that
satisfy the readonly condition. -/
theorem meta_loop1_readonly_names {Req : Type} (ex rf : List FName) (ro : Bool)
    (fields : List (FName × Field Req)) :
    fields.filterMap (fun p =>
        if p.1 ∈ ex then none
        else if p.1 ∈ rf ∨ ro = true ∨ p.2.is_readonly = true then some p.1 else none) =
      metaReadonlyNames rf ro (metaKeptFields ex fields) := by
  induction fields with
  | nil => rfl
  | cons p fs ih =>
    unfold metaReadonlyNames metaKeptFields at ih ⊢
    simp only [List.filterMap_cons, List.filter_cons]
    by_cases h1 : p.1 ∈ ex
    · simp [h1, ih]
    · by_cases h2 : p.1 ∈ rf ∨ ro = true ∨ p.2.is_readonly = true
      · simp [h1, h2, ih]
      · simp [h1, h2, ih]

theorem createdFieldsFrom_congr {Req : Type} (cb : Option (FName → Field Req))
    (b1 b2 : List (FName × Field Req)) (ns : List FName)
    (h : ∀ fn ∈ ns, dget b1 fn = dget b2 fn) :
    createdFieldsFrom cb b1 ns = createdFieldsFrom cb b2 ns := by
  cases cb with
  | none => rfl
  | some g =>
    induction ns with
    | nil => rfl
    | cons fn ns ih =>
      have hfn := h fn (List.mem_cons_self _ _)
      have hns := ih (fun x hx => h x (List.mem_cons_of_mem _ hx))
      unfold createdFieldsFrom at hns ⊢
      simp only [List.filterMap_cons]
      rw [hfn, hns]

/-- The second metaclass loop appends the created fields and their names. -/
theorem meta_loop2_spec {Req : Type} (cb : Option (FName → Field Req)) :
    ∀ (ns : List FName) (acc : List (FName × Field Req) × List FName), ns.Nodup →
    (ns.foldl (meta_step2 cb) acc).1 = acc.1 ++ createdFieldsFrom cb acc.1 ns ∧
    (ns.foldl (meta_step2 cb) acc).2 =
      acc.2 ++ (createdFieldsFrom cb acc.1 ns).map Prod.fst := by
  intro ns
  cases cb with
  | none =>
    induction ns with
    | nil =>
      intro acc _
      simp [createdFieldsFrom]
    | cons fn ns ih =>
      intro acc hnodup
      simp only [List.foldl_cons]
      have hstep : meta_step2 (none : Option (FName → Field Req)) acc fn = acc := rfl
      rw [hstep]
      have hih := ih acc (List.nodup_cons.1 hnodup).2
      unfold createdFieldsFrom at hih ⊢
      simp only [List.filterMap_cons]
      exact hih
  | some g =>
    induction ns with
    | nil =>
      intro acc _
      simp [createdFieldsFrom]
    | cons fn ns ih =>
      intro acc hnodup
      have hnd := List.nodup_cons.1 hnodup
      simp only [List.foldl_cons]
      by_cases hd : (dget acc.1 fn).isNone = true
      · have hstep : meta_step2 (some g) acc fn =
            (acc.1 ++ [(fn, g fn)], acc.2 ++ [fn]) := by
          dsimp only [meta_step2]
          rw [if_pos hd]
        rw [hstep]
        have hih := ih (acc.1 ++ [(fn, g fn)], acc.2 ++ [fn]) hnd.2
        have hcongr : createdFieldsFrom (some g) (acc.1 ++ [(fn, g fn)]) ns =
            createdFieldsFrom (some g) acc.1 ns := by
          apply createdFieldsFrom_congr
          intro x hx
          have hxfn : x ≠ fn := fun hh => hnd.1 (hh ▸ hx)
          have hfnx : fn ≠ x := fun hh => hxfn hh.symm
          cases hb : dget acc.1 x with
          | some w => exact dget_append_left _ hb
          | none =>
            rw [dget_append_right _ hb]
            simp [dget, hfnx]
        rw [hcongr] at hih
        have hcreated : createdFieldsFrom (some g) acc.1 (fn :: ns) =
            (fn, g fn) :: createdFieldsFrom (some g) acc.1 ns := by
          unfold createdFieldsFrom
          simp only [List.filterMap_cons]
          rw [if_pos hd]
        rw [hcreated]
        constructor
        · rw [hih.1]
          simp
        · rw [hih.2]
          simp
      · have hstep : meta_step2 (some g) acc fn = acc := by
          dsimp only [meta_step2]
          rw [if_neg hd]
        rw [hstep]
        have hih := ih acc hnd.2
        have hcreated : createdFieldsFrom (some g) acc.1 (fn :: ns) =
            createdFieldsFrom (some g) acc.1 ns := by
          unfold createdFieldsFrom
          simp only [List.filterMap_cons]
          rw [if_neg hd]
        rw [hcreated]
        exact hih

/-! ### Claim C4 -/

/-- Claim C4 (amended): after `SmartFormMetaclass.__new__` with a `Meta`,
`base_fields` is the declared fields minus those named in `Meta.exclude`,
followed by the fields the `formreadonlyfield_callback` creates for the names
of `Meta.readonly_fields` missing from the kept fields (part 1);
`base_readonly_fields` is exactly, in iteration order, every kept base field
name that is in `Meta.readonly_fields`, or readonly by `Meta.readonly`, or
whose field `is_readonly`, followed by the created names (part 2); and no
field named in `Meta.exclude` remains in `base_fields` — except a name the
callback re-creates because it is also in `Meta.readonly_fields` (part 3). -/
theorem c4_metaclass_amended {Req : Type} (opts : MetaCls)
    (cb : Option (FName → Field Req)) (fields : List (FName × Field Req))
    (hnodup : (fields.map Prod.fst).Nodup) :
    (smart_meta_new (some opts) cb fields).1 =
      metaKeptFields (metaOptsExclude opts) fields ++
        metaCreatedFields cb (metaOptsReadonlyFields opts)
          (metaKeptFields (metaOptsExclude opts) fields) ∧
    (smart_meta_new (some opts) cb fields).2 =
      some (metaReadonlyNames (metaOptsReadonlyFields opts) (metaOptsReadonly opts)
          (metaKeptFields (metaOptsExclude opts) fields) ++
        (metaCreatedFields cb (metaOptsReadonlyFields opts)
          (metaKeptFields (metaOptsExclude opts) fields)).map Prod.fst) ∧
    (∀ n, n ∈ metaOptsExclude opts →
      (∀ q ∈ metaCreatedFields cb (metaOptsReadonlyFields opts)
        (metaKeptFields (metaOptsExclude opts) fields), q.1 ≠ n) →
      dget (smart_meta_new (some opts) cb fields).1 n = none) := by
  have h1fst : (fields.foldl
      (meta_step1 (metaOptsExclude opts) (metaOptsReadonlyFields opts)
        (metaOptsReadonly opts)) (fields, ([] : List FName))).1 =
      metaKeptFields (metaOptsExclude opts) fields := by
    rw [meta_loop1_fst]
    rw [foldl_derase_filter _ fields fields hnodup]
    unfold metaKeptFields
    apply List.filter_congr
    intro q hq
    have hmem : q.1 ∈ fields.map Prod.fst := List.mem_map_of_mem Prod.fst hq
    simp [hmem]
  have h1snd : (fields.foldl
      (meta_step1 (metaOptsExclude opts) (metaOptsReadonlyFields opts)
        (metaOptsReadonly opts)) (fields, ([] : List FName))).2 =
      metaReadonlyNames (metaOptsReadonlyFields opts) (metaOptsReadonly opts)
        (metaKeptFields (metaOptsExclude opts) fields) := by
    rw [meta_loop1_snd, meta_loop1_readonly_names]
    simp
  have hacc : fields.foldl
      (meta_step1 (metaOptsExclude opts) (metaOptsReadonlyFields opts)
        (metaOptsReadonly opts)) (fields, ([] : List FName)) =
      (metaKeptFields (metaOptsExclude opts) fields,
        metaReadonlyNames (metaOptsReadonlyFields opts) (metaOptsReadonly opts)
          (metaKeptFields (metaOptsExclude opts) fields)) := by
    rw [Prod.ext_iff]
    exact ⟨h1fst, h1snd⟩
  have h2 := meta_loop2_spec cb (firstOccurrenceOrder (metaOptsReadonlyFields opts))
    (metaKeptFields (metaOptsExclude opts) fields,
      metaReadonlyNames (metaOptsReadonlyFields opts) (metaOptsReadonly opts)
        (metaKeptFields (metaOptsExclude opts) fields))
    (firstOccurrenceOrder_nodup _)
  have hfst : (smart_meta_new (some opts) cb fields).1 =
      metaKeptFields (metaOptsExclude opts) fields ++
        metaCreatedFields cb (metaOptsReadonlyFields opts)
          (metaKeptFields (metaOptsExclude opts) fields) := by
    show ((firstOccurrenceOrder (metaOptsReadonlyFields opts)).foldl (meta_step2 cb)
      (fields.foldl (meta_step1 (metaOptsExclude opts) (metaOptsReadonlyFields opts)
        (metaOptsReadonly opts)) (fields, ([] : List FName)))).1 = _
    rw [hacc]
    exact h2.1
  have hsnd : (smart_meta_new (some opts) cb fields).2 =
      some (metaReadonlyNames (metaOptsReadonlyFields opts) (metaOptsReadonly opts)
          (metaKeptFields (metaOptsExclude opts) fields) ++
        (metaCreatedFields cb (metaOptsReadonlyFields opts)
          (metaKeptFields (metaOptsExclude opts) fields)).map Prod.fst) := by
    show some (((firstOccurrenceOrder (metaOptsReadonlyFields opts)).foldl (meta_step2 cb)
      (fields.foldl (meta_step1 (metaOptsExclude opts) (metaOptsReadonlyFields opts)
        (metaOptsReadonly opts)) (fields, ([] : List FName)))).2) = _
    rw [hacc]
    rw [h2.2]
    rfl
  refine ⟨hfst, hsnd, ?_⟩
  intro n hex hnc
  rw [hfst]
  have hkept : dget (metaKeptFields (metaOptsExclude opts) fields) n = none := by
    rw [dget_eq_none_iff]
    intro hmem
    obtain ⟨q, hq, hq1⟩ := List.mem_map.1 hmem
    have hq2 := List.of_mem_filter hq
    simp only [decide_eq_true_eq] at hq2
    exact hq2 (hq1 ▸ hex)
  rw [dget_append_right _ hkept]
  rw [dget_eq_none_iff]
  intro hmem
  obtain ⟨q, hq, hq1⟩ := List.mem_map.1 hmem
  exact hnc q hq hq1

/-- A concrete `Meta` with the same name excluded and readonly. -/
def cexMeta : MetaCls := MetaCls.base ⟨some ["x"], some ["x"], none⟩

/-- Counterexample to C4 as stated: with `Meta.exclude = ['x']`,
`Meta.readonly_fields = ['x']`, a declared field `x` and a
`formreadonlyfield_callback` present, the field named `x` — which is in
`Meta.exclude` — is deleted by the first loop and then re-created by the
callback in the second loop, so a field named in `Meta.exclude` remains in
`base_fields`. -/
theorem c4_metaclass_counterexample :
    "x" ∈ metaOptsExclude cexMeta ∧
    (dget (smart_meta_new (some cexMeta) (some (fun _ => sampleField))
      [("x", sampleField)]).1 "x").isSome = true := by
  have hfoo : firstOccurrenceOrder ["x"] = ["x"] := by
    rw [firstOccurrenceOrder_cons]
    simp [firstOccurrenceOrder_nil]
  constructor
  · simp [metaOptsExclude, cexMeta, MetaCls.resolveExclude]
  · show (dget ((firstOccurrenceOrder (metaOptsReadonlyFields cexMeta)).foldl
      (meta_step2 (some (fun _ => sampleField)))
      ([("x", sampleField)].foldl (meta_step1 (metaOptsExclude cexMeta)
        (metaOptsReadonlyFields cexMeta) (metaOptsReadonly cexMeta))
        ([("x", sampleField)], []))).1 "x").isSome = true
    rw [show metaOptsReadonlyFields cexMeta = ["x"] from rfl, hfoo]
    simp [meta_step1, meta_step2, metaOptsExclude, metaOptsReadonly, cexMeta,
      MetaCls.resolveExclude, MetaCls.resolveReadonly, derase, dget]

/-- Witness for the amended C4 at the counterexample's input. -/
theorem c4_metaclass_amended_witness :
    (smart_meta_new (some cexMeta) (some (fun _ => sampleField)) [("x", sampleField)]).1 =
      metaKeptFields (metaOptsExclude cexMeta) [("x", sampleField)] ++
        metaCreatedFields (some (fun _ => sampleField)) (metaOptsReadonlyFields cexMeta)
          (metaKeptFields (metaOptsExclude cexMeta) [("x", sampleField)]) ∧
    (smart_meta_new (some cexMeta) (some (fun _ => sampleField)) [("x", sampleField)]).2 =
      some (metaReadonlyNames (metaOptsReadonlyFields cexMeta) (metaOptsReadonly cexMeta)
          (metaKeptFields (metaOptsExclude cexMeta) [("x", sampleField)]) ++
        (metaCreatedFields (some (fun _ => sampleField)) (metaOptsReadonlyFields cexMeta)
          (metaKeptFields (metaOptsExclude cexMeta) [("x", sampleField)])).map Prod.fst) ∧
    (∀ n, n ∈ metaOptsExclude cexMeta →
      (∀ q ∈ metaCreatedFields (some (fun _ => sampleField)) (metaOptsReadonlyFields cexMeta)
        (metaKeptFields (metaOptsExclude cexMeta) [("x", sampleField)]), q.1 ≠ n) →
      dget (smart_meta_new (some cexMeta) (some (fun _ => sampleField))
        [("x", sampleField)]).1 n = none) :=
  c4_metaclass_amended cexMeta (some (fun _ => sampleField)) [("x", sampleField)] (by decide)

/-! ### Lemmas bridging the faithful and the completed-run metaclass, and
claim C3 -/

theorem foldl_meta_step2_none {Req : Type} (ns : List FName)
    (acc : List (FName × Field Req) × List FName) :
    ns.foldl (meta_step2 (none : Option (FName → Field Req))) acc = acc := by
  induction ns generalizing acc with
  | nil => rfl
  | cons fn ns ih =>
    simp only [List.foldl_cons]
    exact ih acc

theorem meta_loop2E_cons {Req : Type} (cb : CallbackAttr Req) (fn : FName)
    (ns : List FName) (acc : List (FName × Field Req) × List FName) :
    meta_loop2E cb (fn :: ns) acc =
      match meta_step2E cb acc fn with
      | .ok acc2 => meta_loop2E cb ns acc2
      | .error e => .error e := rfl

theorem meta_loop2E_absent {Req : Type} (ns : List FName)
    (acc : List (FName × Field Req) × List FName) :
    meta_loop2E (none : CallbackAttr Req) ns acc = Except.ok acc := by
  induction ns generalizing acc with
  | nil => rfl
  | cons fn ns ih => exact ih acc

theorem meta_loop2E_callable {Req : Type} (g : FName → Field Req) (ns : List FName)
    (acc : List (FName × Field Req) × List FName) :
    meta_loop2E (some (some g)) ns acc =
      Except.ok (ns.foldl (meta_step2 (some g)) acc) := by
  induction ns generalizing acc with
  | nil => rfl
  | cons fn ns ih =>
    simp only [List.foldl_cons]
    by_cases hd : (dget acc.1 fn).isNone = true
    · have hstep : meta_step2E (some (some g)) acc fn =
          Except.ok (acc.1 ++ [(fn, g fn)], acc.2 ++ [fn]) := by
        dsimp only [meta_step2E]
        rw [if_pos hd]
      have hstep2 : meta_step2 (some g) acc fn = (acc.1 ++ [(fn, g fn)], acc.2 ++ [fn]) := by
        dsimp only [meta_step2]
        rw [if_pos hd]
      rw [meta_loop2E_cons, hstep, hstep2]
      exact ih _
    · have hstep : meta_step2E (some (some g)) acc fn = Except.ok acc := by
        dsimp only [meta_step2E]
        rw [if_neg hd]
      have hstep2 : meta_step2 (some g) acc fn = acc := by
        dsimp only [meta_step2]
        rw [if_neg hd]
      rw [meta_loop2E_cons, hstep, hstep2]
      exact ih _

theorem meta_loop2E_presentNone_ok {Req : Type} (ns : List FName)
    (acc acc' : List (FName × Field Req) × List FName)
    (h : meta_loop2E (some (none : Option (FName → Field Req))) ns acc = Except.ok acc') :
    acc' = acc := by
  induction ns generalizing acc with
  | nil => exact (Except.ok.inj h).symm
  | cons fn ns ih =>
    rw [meta_loop2E_cons] at h
    by_cases hd : (dget acc.1 fn).isNone = true
    · have hstep : meta_step2E (some (none : Option (FName → Field Req))) acc fn =
          Except.error PyTypeError.typeErr := by
        dsimp only [meta_step2E]
        rw [if_pos hd]
      rw [hstep] at h
      simp at h
    · have hstep : meta_step2E (some (none : Option (FName → Field Req))) acc fn =
          Except.ok acc := by
        dsimp only [meta_step2E]
        rw [if_neg hd]
      rw [hstep] at h
      exact ih acc h

theorem smart_meta_newE_absent {Req : Type} (opts : Option MetaCls)
    (fields : List (FName × Field Req)) :
    smart_meta_newE opts none fields = Except.ok (smart_meta_new opts none fields) := by
  cases opts with
  | none => rfl
  | some o =>
    dsimp only [smart_meta_newE, smart_meta_new]
    rw [meta_loop2E_absent, foldl_meta_step2_none]

theorem smart_meta_newE_callable {Req : Type} (opts : Option MetaCls)
    (g : FName → Field Req) (fields : List (FName × Field Req)) :
    smart_meta_newE opts (some (some g)) fields =
      Except.ok (smart_meta_new opts (some g) fields) := by
  cases opts with
  | none => rfl
  | some o =>
    dsimp only [smart_meta_newE, smart_meta_new]
    rw [meta_loop2E_callable]

theorem smart_meta_newE_presentNone_ok {Req : Type} (opts : Option MetaCls)
    (fields : List (FName × Field Req)) (p : List (FName × Field Req) × Option (List FName))
    (h : smart_meta_newE opts (some (none : Option (FName → Field Req))) fields =
      Except.ok p) :
    p = smart_meta_new opts (none : Option (FName → Field Req)) fields := by
  cases opts with
  | none =>
    have hp := Except.ok.inj h
    rw [← hp]
    rfl
  | some o =>
    dsimp only [smart_meta_newE] at h
    cases hL : meta_loop2E (some (none : Option (FName → Field Req)))
        (firstOccurrenceOrder (metaOptsReadonlyFields o))
        (fields.foldl (meta_step1 (metaOptsExclude o) (metaOptsReadonlyFields o)
          (metaOptsReadonly o)) (fields, [])) with
    | error e =>
      rw [hL] at h
      simp at h
    | ok acc2 =>
      rw [hL] at h
      have hacc := meta_loop2E_presentNone_ok _ _ _ hL
      have hp := Except.ok.inj h
      rw [← hp, hacc]
      dsimp only [smart_meta_new]
      rw [foldl_meta_step2_none]

theorem factoryMeta_own {Req : Type} (form : FormCls Req)
    (readonly_fields exclude : Option (List FName)) (readonly : Bool) :
    (factoryMeta form readonly_fields exclude readonly).own =
      ⟨exclude, readonly_fields, some readonly⟩ := by
  obtain ⟨nm, mo, bfs⟩ := form
  cases mo <;> rfl

theorem factoryMeta_parentMeta {Req : Type} (form : FormCls Req)
    (readonly_fields exclude : Option (List FName)) (readonly : Bool) :
    (factoryMeta form readonly_fields exclude readonly).parentMeta = form.MetaOf := by
  obtain ⟨nm, mo, bfs⟩ := form
  cases mo <;> rfl

/-- Description of the class the claim expects the factory to return: the
listed attributes, with the fields processed by the parent's metaclass. -/
def builtClassAgrees {Req : Type} (request : Req) (form : FormCls Req)
    (readonly_fields exclude : Option (List FName))
    (callback : Option (FName → Field Req)) (readonly : Bool)
    (r : BuiltFormCls Req) : Prop :=
  r._request = request ∧
  r.formreadonlyfield_callback = callback ∧
  r.parent = form ∧
  r.clsName = form.clsName ∧
  r.MetaOf.own = ⟨exclude, readonly_fields, some readonly⟩ ∧
  r.MetaOf.parentMeta = form.MetaOf ∧
  r.base_fields = (smart_meta_new (some r.MetaOf) callback form.base_fields).1 ∧
  r.base_readonly_fields =
    (smart_meta_new (some r.MetaOf) callback form.base_fields).2.getD []

/-- Whatever class the factory returns satisfies the claimed description. -/
theorem smartform_factory_ok_spec {Req : Type} (request : Req) (form : FormCls Req)
    (readonly_fields exclude : Option (List FName))
    (callback : Option (FName → Field Req)) (readonly : Bool) (r : BuiltFormCls Req)
    (hok : smartform_factory request form readonly_fields exclude callback readonly =
      Except.ok r) :
    builtClassAgrees request form readonly_fields exclude callback readonly r := by
  cases callback with
  | some g =>
    unfold smartform_factory at hok
    rw [smart_meta_newE_callable] at hok
    have hr := Except.ok.inj hok
    subst hr
    exact ⟨rfl, rfl, rfl, rfl, factoryMeta_own form readonly_fields exclude readonly,
      factoryMeta_parentMeta form readonly_fields exclude readonly, rfl, rfl⟩
  | none =>
    unfold smartform_factory at hok
    cases hE : smart_meta_newE (some (factoryMeta form readonly_fields exclude readonly))
        (some (none : Option (FName → Field Req))) form.base_fields with
    | error e =>
      rw [hE] at hok
      simp at hok
    | ok p =>
      rw [hE] at hok
      have hp := smart_meta_newE_presentNone_ok _ _ _ hE
      have hr := Except.ok.inj hok
      subst hr
      subst hp
      exact ⟨rfl, rfl, rfl, rfl, factoryMeta_own form readonly_fields exclude readonly,
        factoryMeta_parentMeta form readonly_fields exclude readonly, rfl, rfl⟩

/-- With a callable callback the metaclass run always completes. -/
theorem smartform_factory_callable_ok {Req : Type} (request : Req) (form : FormCls Req)
    (readonly_fields exclude : Option (List FName)) (g : FName → Field Req)
    (readonly : Bool) :
    ∃ r, smartform_factory request form readonly_fields exclude (some g) readonly =
      Except.ok r := by
  refine ⟨{ clsName := form.clsName
            parent := form
            MetaOf := factoryMeta form readonly_fields exclude readonly
            formreadonlyfield_callback := some g
            _request := request
            base_fields := (smart_meta_new
              (some (factoryMeta form readonly_fields exclude readonly)) (some g)
              form.base_fields).1
            base_readonly_fields := ((smart_meta_new
              (some (factoryMeta form readonly_fields exclude readonly)) (some g)
              form.base_fields).2).getD [] }, ?_⟩
  unfold smartform_factory
  rw [smart_meta_newE_callable]

/-- A parent form with no `Meta` and no base fields. -/
def cexParentForm : FormCls Nat := ⟨"CexForm", none, []⟩

/-- Counterexample to C3 as stated: `smartform_factory` always installs the
`formreadonlyfield_callback` key in the class attrs, with default value
`None`, so the key-presence guard of the metaclass passes; with callback
`None` and `readonly_fields` naming a field absent from `base_fields`, the
metaclass calls `None(field_name)` and raises `TypeError`, and the factory
returns no class. -/
theorem c3_smartform_factory_counterexample :
    smartform_factory (0 : Nat) cexParentForm (some ["m"]) none none false =
      Except.error PyTypeError.typeErr := by
  have hfoo : firstOccurrenceOrder ["m"] = ["m"] := by
    rw [firstOccurrenceOrder_cons]
    simp [firstOccurrenceOrder_nil]
  have hE : smart_meta_newE (some (factoryMeta cexParentForm (some ["m"]) none false))
      (some (none : Option (FName → Field Nat))) cexParentForm.base_fields =
      Except.error PyTypeError.typeErr := by
    have hMeta : factoryMeta cexParentForm (some ["m"]) none false =
        MetaCls.base ⟨none, some ["m"], some false⟩ := rfl
    rw [hMeta]
    dsimp only [smart_meta_newE]
    rw [show metaOptsReadonlyFields (MetaCls.base ⟨none, some ["m"], some false⟩) = ["m"]
      from rfl]
    rw [hfoo]
    rfl
  unfold smartform_factory
  rw [hE]

/-- Claim C3 (amended): whenever the `formreadonlyfield_callback` argument is
callable, `smartform_factory` returns a new class — and whenever it returns a
class at all, also with callback `None` — that class is created through the
parent's metaclass and subclasses the given form: its `base_fields` and
`base_readonly_fields` are the metaclass processing of the parent's fields
against the new `Meta`, its `_request` is exactly the given request, its
`formreadonlyfield_callback` is the given callback, and its inner `Meta`
(deriving from the parent form's `Meta` when one exists) sets `readonly` to
the given flag and sets `exclude` and `readonly_fields` exactly when those
arguments are not `None`. (With callback `None` and a readonly-fields name
absent from `base_fields` the factory instead raises `TypeError`.) -/
theorem c3_smartform_factory_amended {Req : Type} (request : Req) (form : FormCls Req)
    (readonly_fields exclude : Option (List FName))
    (callback : Option (FName → Field Req)) (readonly : Bool) :
    (∀ g, callback = some g →
      ∃ r, smartform_factory request form readonly_fields exclude callback readonly =
          Except.ok r ∧
        builtClassAgrees request form readonly_fields exclude callback readonly r) ∧
    (∀ r, smartform_factory request form readonly_fields exclude callback readonly =
        Except.ok r →
      builtClassAgrees request form readonly_fields exclude callback readonly r) := by
  constructor
  · intro g hg
    subst hg
    obtain ⟨r, hr⟩ :=
      smartform_factory_callable_ok request form readonly_fields exclude g readonly
    exact ⟨r, hr,
      smartform_factory_ok_spec request form readonly_fields exclude (some g) readonly r hr⟩
  · intro r hr
    exact smartform_factory_ok_spec request form readonly_fields exclude callback readonly r hr

/-- A concrete parent form class for the C3 witness. -/
def sampleParentForm : FormCls Nat := ⟨"SampleForm", none, [("a", sampleField)]⟩

/-- Witness for the amended C3 at a callable callback. -/
theorem c3_smartform_factory_amended_witness :
    ∃ r, smartform_factory (7 : Nat) sampleParentForm (some ["extra"]) (some ["a"])
        (some (fun _ => sampleField)) true = Except.ok r ∧
      builtClassAgrees 7 sampleParentForm (some ["extra"]) (some ["a"])
        (some (fun _ => sampleField)) true r :=
  (c3_smartform_factory_amended 7 sampleParentForm (some ["extra"]) (some ["a"])
    (some (fun _ => sampleField)) true).1 (fun _ => sampleField) rfl

end IsCore
